import Mathlib

/-! CppLearning: bounded queue, unbounded queue and thread pool.

A shallow embedding of `DDqueue2.cpp` (bounded queue), `DDqueue.cpp`
(unbounded queue) and `DDthreadpool.cpp` (thread pool).

Every member function of the three classes runs its body while holding the
object's mutex, so each call is one atomic transition of the object's state.
A blocking call (`push`, `pop`, `submit`, the worker's wait) is a transition
that is enabled only when the predicate handed to `condition_variable::wait`
holds; while the predicate is false the caller stays suspended and the state
is untouched.

Containers (`std::deque`, `std::queue`, `std::vector`) are lists, front
first.  `size_t` values are natural numbers; the 32-bit `int` field of the
bounded queue is an integer obtained by the usual modular conversion.
-/

namespace DDqueue2

/-- Conversion of a `size_t` value to a 32-bit `int`, as performed by the member
initialiser `max_queue_size_(capacity)`: the value is reduced modulo `2^32` and
read as a two's complement number. -/
def to_int (n : Nat) : Int :=
  if n % 2 ^ 32 < 2 ^ 31 then ((n % 2 ^ 32 : Nat) : Int)
  else ((n % 2 ^ 32 : Nat) : Int) - 2 ^ 32

/-- Conversion of an `int` to `size_t` (64 bit), as performed by the usual
arithmetic conversions in `q_.size() >= max_queue_size_`. -/
def to_size_t (i : Int) : Nat :=
  (i % 2 ^ 64).toNat

/-- Data members of `DD::Queue<T>` of `DDqueue2.cpp` (the mutex and the two
condition variables carry no data): `std::deque<T> q_` and
`int max_queue_size_`. -/
structure Queue (α : Type) where
  q_ : List α
  max_queue_size_ : Int
  deriving DecidableEq, Repr

/-- Constructor `Queue(size_t capacity) : max_queue_size_(capacity) {}`. -/
def Queue.init {α : Type} (capacity : Nat) : Queue α :=
  { q_ := [], max_queue_size_ := to_int capacity }

/-- Member `is_full`:
`return max_queue_size_ > 0 && q_.size() >= max_queue_size_;`. -/
def Queue.is_full {α : Type} (q : Queue α) : Bool :=
  decide (q.max_queue_size_ > 0) && decide (q.q_.length ≥ to_size_t q.max_queue_size_)

/-- Blocking `push`: waits on `not_full_` for `!is_full()`, then appends at the
back.  `none` means the wait predicate is false: the caller stays suspended and
nothing is stored. -/
def Queue.push {α : Type} (q : Queue α) (val : α) : Option (Queue α) :=
  if !q.is_full then some { q with q_ := q.q_ ++ [val] } else none

/-- Blocking `pop`: waits on `not_empty_` for `!q_.empty()`, then removes and
returns the front.  `none` means the wait predicate is false. -/
def Queue.pop {α : Type} (q : Queue α) : Option (α × Queue α) :=
  match q.q_ with
  | [] => none
  | x :: rest => some (x, { q with q_ := rest })

/-- Non-blocking `try_push`: `if (is_full()) return false;` otherwise appends
at the back and returns `true`. -/
def Queue.try_push {α : Type} (q : Queue α) (val : α) : Bool × Queue α :=
  if q.is_full then (false, q) else (true, { q with q_ := q.q_ ++ [val] })

/-- Non-blocking `try_pop`: `if (q_.empty()) return {};` otherwise removes and
returns the front. -/
def Queue.try_pop {α : Type} (q : Queue α) : Option α × Queue α :=
  match q.q_ with
  | [] => (none, q)
  | x :: rest => (some x, { q with q_ := rest })

/-- Calls a client can issue on one queue. -/
inductive Op (α : Type) where
  | push (val : α)
  | pop
  | try_push (val : α)
  | try_pop
  deriving DecidableEq, Repr

/-- A queue together with the history of its calls: the values accepted by
`push` and by successful `try_push`, and the values handed out by `pop` and by
successful `try_pop`, both in the order the calls completed. -/
structure Run (α : Type) where
  queue : Queue α
  accepted : List α
  returned : List α
  deriving DecidableEq, Repr

/-- History of a queue on which no call has completed yet. -/
def Run.start {α : Type} (q : Queue α) : Run α :=
  { queue := q, accepted := [], returned := [] }

/-- One completed call.  `none` when the call is a blocking one whose wait
predicate is false, so that it cannot complete in this state. -/
def Run.step {α : Type} (r : Run α) : Op α → Option (Run α)
  | .push val =>
    match r.queue.push val with
    | some q => some { r with queue := q, accepted := r.accepted ++ [val] }
    | none => none
  | .pop =>
    match r.queue.pop with
    | some (x, q) => some { r with queue := q, returned := r.returned ++ [x] }
    | none => none
  | .try_push val =>
    match r.queue.try_push val with
    | (true, q) => some { r with queue := q, accepted := r.accepted ++ [val] }
    | (false, q) => some { r with queue := q }
  | .try_pop =>
    match r.queue.try_pop with
    | (some x, q) => some { r with queue := q, returned := r.returned ++ [x] }
    | (none, q) => some { r with queue := q }

/-- A sequence of completed calls, in the order in which they held the mutex. -/
def Run.exec {α : Type} (r : Run α) : List (Op α) → Option (Run α)
  | [] => some r
  | op :: ops =>
    match r.step op with
    | some r1 => r1.exec ops
    | none => none

/-- State of the test in `main`: the queue `q(10)`, the loop counter of the
producer thread `t3`, the loop counter of the consumer thread `t4`, and the
values printed so far. -/
structure TestState where
  q : Queue Int
  i3 : Int
  i4 : Int
  out : List Int
  deriving DecidableEq, Repr

/-- Start of `main`: `Queue<int> q(10);` and both loop counters at 0. -/
def TestState.init : TestState :=
  { q := Queue.init 10, i3 := 0, i4 := 0, out := [] }

/-- One iteration of the loop of `t3`:
`for (int i = 0; i < 100;) { if (q.try_push(i)) { i++; } }`. -/
def TestState.t3 (s : TestState) : TestState :=
  if s.i3 < 100 then
    match s.q.try_push s.i3 with
    | (true, q) => { s with q := q, i3 := s.i3 + 1 }
    | (false, q) => { s with q := q }
  else s

/-- One iteration of the loop of `t4`:
`for (int i = 0; i < 100;) { if (auto ret = q.try_pop()) { print *ret; i++; } }`. -/
def TestState.t4 (s : TestState) : TestState :=
  if s.i4 < 100 then
    match s.q.try_pop with
    | (some x, q) => { s with q := q, out := s.out ++ [x], i4 := s.i4 + 1 }
    | (none, q) => { s with q := q }
  else s

/-- An interleaving of the two threads: `true` lets `t3` run one iteration,
`false` lets `t4` run one. -/
def TestState.run (s : TestState) : List Bool → TestState
  | [] => s
  | true :: sched => (s.t3).run sched
  | false :: sched => (s.t4).run sched

end DDqueue2

namespace DDqueue

/-- Data member of the unbounded `DD::Queue<T>` of `DDqueue.cpp`:
`std::queue<T> q_`. -/
structure Queue (α : Type) where
  q_ : List α
  deriving DecidableEq, Repr

/-- Member `emplace` (and both `push` overloads, which forward to it): appends
at the back. -/
def Queue.emplace {α : Type} (q : Queue α) (val : α) : Queue α :=
  { q_ := q.q_ ++ [val] }

/-- Blocking `pop`: waits on `cv_` for `!q_.empty()`, then removes and returns
the front.  `none` means the wait predicate is false. -/
def Queue.pop {α : Type} (q : Queue α) : Option (α × Queue α) :=
  match q.q_ with
  | [] => none
  | x :: rest => some (x, { q_ := rest })

/-- Non-blocking `try_pop`: `if (q_.empty()) return {};` otherwise removes and
returns the front. -/
def Queue.try_pop {α : Type} (q : Queue α) : Option α × Queue α :=
  match q.q_ with
  | [] => (none, q)
  | x :: rest => (some x, { q_ := rest })

end DDqueue

namespace DDthreadpool

/-- Largest value of the 32-bit `int` loop counter of `start`. -/
def INT_MAX : Nat := 2147483647

/-- One element of `std::vector<std::thread> threads_`: a thread handle is
joinable from its construction until it has been joined. -/
structure thread where
  joinable : Bool
  deriving DecidableEq, Repr

/-- Data members of `DD::thread_pool` (the mutex and the two condition
variables carry no data): `threads_`, the task queue `q_`,
`size_t max_queue_size_` and `bool running_`. -/
structure thread_pool (τ : Type) where
  threads_ : List thread
  q_ : List τ
  max_queue_size_ : Nat
  running_ : Bool
  deriving DecidableEq, Repr

/-- Constructor `thread_pool(size_t n) : max_queue_size_(n), running_(false) {}`. -/
def thread_pool.init {τ : Type} (n : Nat) : thread_pool τ :=
  { threads_ := [], q_ := [], max_queue_size_ := n, running_ := false }

/-- Member `is_full`:
`return max_queue_size_ > 0 && q_.size() >= max_queue_size_;`. -/
def thread_pool.is_full {τ : Type} (p : thread_pool τ) : Bool :=
  decide (p.max_queue_size_ > 0) && decide (p.q_.length ≥ p.max_queue_size_)

/-- The loop `for (int i = 0; i < thread_num; ++i) threads_.emplace_back(...)`
of `start`, entered with counter `i` and vector `ts`.  The first argument
bounds the number of iterations still to run.  `none` when `++i` would leave
the range of `int`, which the language leaves undefined. -/
def start_loop (thread_num : Nat) : Nat → Nat → List thread → Option (List thread)
  | 0, i, ts => if i < thread_num then none else some ts
  | fuel + 1, i, ts =>
    if i < thread_num then
      if i < INT_MAX then start_loop thread_num fuel (i + 1) (ts ++ [{ joinable := true }])
      else none
    else some ts

/-- Member `start`: `if (running_) return;` otherwise sets `running_` and
appends `thread_num` worker threads. -/
def thread_pool.start {τ : Type} (p : thread_pool τ) (thread_num : Nat) :
    Option (thread_pool τ) :=
  if p.running_ then some p
  else
    match start_loop thread_num thread_num 0 p.threads_ with
    | some ts => some { p with running_ := true, threads_ := ts }
    | none => none

/-- Member `stop`: `if (!running_) return;` otherwise clears `running_`, wakes
every waiter and joins every joinable thread of `threads_`. -/
def thread_pool.stop {τ : Type} (p : thread_pool τ) : thread_pool τ :=
  if !p.running_ then p
  else
    { p with
      running_ := false
      threads_ := p.threads_.map fun t => if t.joinable then { joinable := false } else t }

/-- How a call of `submit` leaves its wait: still suspended on `not_full_`, out
through the statement `throw;`, or by a normal return (the function is `void`,
so a normal return carries no value). -/
inductive Exit where
  | waiting
  | rethrow
  | returned
  deriving DecidableEq, Repr

/-- Member `submit`: waits on `not_full_` for `!running_ || !is_full()`; then
`if (!running_) throw;` otherwise appends the task at the back of `q_`. -/
def thread_pool.submit {τ : Type} (p : thread_pool τ) (f : τ) : Exit × thread_pool τ :=
  if !p.running_ || !p.is_full then
    if !p.running_ then (Exit.rethrow, p)
    else (Exit.returned, { p with q_ := p.q_ ++ [f] })
  else (Exit.waiting, p)

/-- What one pass of the worker loop does: stays suspended on `not_empty_`,
leaves the loop through `return`, or takes a task out of the queue and calls
it. -/
inductive Pass (τ : Type) where
  | waiting
  | finished
  | run (t : τ)
  deriving DecidableEq, Repr

/-- One pass of the loop of member `worker`: waits on `not_empty_` for
`!running_ || !q_.empty()`; then `if (!running_) return;` otherwise moves the
front task out of `q_` and calls it after releasing the mutex.  The wait
predicate excludes an empty queue in the last case. -/
def thread_pool.worker {τ : Type} (p : thread_pool τ) : Pass τ × thread_pool τ :=
  if !p.running_ || !p.q_.isEmpty then
    if !p.running_ then (Pass.finished, p)
    else
      match p.q_ with
      | [] => (Pass.waiting, p)
      | t :: rest => (Pass.run t, { p with q_ := rest })
  else (Pass.waiting, p)

/-- Calls on a pool: the three public members, and one pass of a worker
thread. -/
inductive Call (τ : Type) where
  | start (thread_num : Nat)
  | stop
  | submit (f : τ)
  | worker
  deriving DecidableEq, Repr

/-- Whether a call is a call of `start`. -/
def Call.is_start {τ : Type} : Call τ → Bool
  | .start _ => true
  | _ => false

/-- A pool together with the history of its calls: the tasks that `submit`
stored, and the tasks that worker passes took out and called, both in the
order in which the calls held the mutex. -/
structure History (τ : Type) where
  pool : thread_pool τ
  accepted : List τ
  executed : List τ
  deriving DecidableEq, Repr

/-- History of a pool on which no call has taken effect yet. -/
def History.start {τ : Type} (p : thread_pool τ) : History τ :=
  { pool := p, accepted := [], executed := [] }

/-- Effect of one call.  A `submit` or a worker pass whose wait predicate is
false leaves everything as it is (the thread stays suspended), and so does a
`submit` that leaves through `throw;`.  `none` only when `start` runs into the
undefined overflow of its loop counter. -/
def History.step {τ : Type} (h : History τ) : Call τ → Option (History τ)
  | .start thread_num =>
    match h.pool.start thread_num with
    | some p => some { h with pool := p }
    | none => none
  | .stop => some { h with pool := h.pool.stop }
  | .submit f =>
    match h.pool.submit f with
    | (Exit.returned, p) => some { h with pool := p, accepted := h.accepted ++ [f] }
    | (_, p) => some { h with pool := p }
  | .worker =>
    match h.pool.worker with
    | (Pass.run t, p) => some { h with pool := p, executed := h.executed ++ [t] }
    | (_, p) => some { h with pool := p }

/-- Effect of a sequence of calls, in the order in which they take effect. -/
def History.exec {τ : Type} (h : History τ) : List (Call τ) → Option (History τ)
  | [] => some h
  | c :: cs =>
    match h.step c with
    | some h1 => h1.exec cs
    | none => none

end DDthreadpool

namespace DD

/-- How a blocking member with an `assert` after its wait can end: still
suspended in the wait, stopped by the failing `assert`, having applied
`front()` to an empty container, having left early (`throw;` in `submit`,
`return` in the worker loop), or having run its body to the end. -/
inductive Guarded (β : Type) where
  | suspended
  | assert_failed
  | front_of_empty
  | left_early
  | done (b : β)
  deriving DecidableEq, Repr

end DD

namespace DDqueue

/-- Constructor of the unbounded queue (implicitly defined): an empty `q_`. -/
def Queue.init {α : Type} : Queue α :=
  { q_ := [] }

/-- Wait predicate of the blocking `pop`: `[this] { return !q_.empty(); }`. -/
def Queue.pop_wait {α : Type} (q : Queue α) : Bool :=
  !q.q_.isEmpty

/-- Blocking `pop` with its `assert(!q_.empty())` and its `q_.front()` spelled
out. -/
def Queue.pop_asserting {α : Type} (q : Queue α) : DD.Guarded (α × Queue α) :=
  if q.pop_wait then
    if !q.q_.isEmpty then
      match q.q_ with
      | x :: rest => DD.Guarded.done (x, { q_ := rest })
      | [] => DD.Guarded.front_of_empty
    else DD.Guarded.assert_failed
  else DD.Guarded.suspended

/-- Calls shared by the unbounded and the bounded queue. -/
inductive Op (α : Type) where
  | push (val : α)
  | pop
  | try_pop
  deriving DecidableEq, Repr

/-- What a call hands back: nothing (`push` is `void`), a value (`pop`), or an
optional value (`try_pop`). -/
inductive Ret (α : Type) where
  | void
  | value (x : α)
  | optional (o : Option α)
  deriving DecidableEq, Repr

/-- One completed call on the unbounded queue with its result; `none` when the
call is a `pop` whose wait predicate is false. -/
def Queue.call {α : Type} (u : Queue α) : Op α → Option (Ret α × Queue α)
  | .push val => some (Ret.void, u.emplace val)
  | .pop =>
    match u.pop with
    | some (x, u1) => some (Ret.value x, u1)
    | none => none
  | .try_pop => some (Ret.optional u.try_pop.1, u.try_pop.2)

/-- A sequence of completed calls on the unbounded queue, with the results in
order. -/
def Queue.calls {α : Type} (u : Queue α) : List (Op α) → Option (List (Ret α) × Queue α)
  | [] => some ([], u)
  | op :: ops =>
    match u.call op with
    | some (r, u1) =>
      match u1.calls ops with
      | some (rs, u2) => some (r :: rs, u2)
      | none => none
    | none => none

end DDqueue

namespace DDqueue2

/-- Wait predicate of the blocking `push`: `[this] { return !is_full(); }`. -/
def Queue.push_wait {α : Type} (q : Queue α) : Bool :=
  !q.is_full

/-- Wait predicate of the blocking `pop`: `[this] { return !q_.empty(); }`. -/
def Queue.pop_wait {α : Type} (q : Queue α) : Bool :=
  !q.q_.isEmpty

/-- Blocking `push` with its `assert(!is_full())` spelled out. -/
def Queue.push_asserting {α : Type} (q : Queue α) (val : α) : DD.Guarded (Queue α) :=
  if q.push_wait then
    if !q.is_full then DD.Guarded.done { q with q_ := q.q_ ++ [val] }
    else DD.Guarded.assert_failed
  else DD.Guarded.suspended

/-- Blocking `pop` with its `assert(!q_.empty())` and its `q_.front()` spelled
out. -/
def Queue.pop_asserting {α : Type} (q : Queue α) : DD.Guarded (α × Queue α) :=
  if q.pop_wait then
    if !q.q_.isEmpty then
      match q.q_ with
      | x :: rest => DD.Guarded.done (x, { q with q_ := rest })
      | [] => DD.Guarded.front_of_empty
    else DD.Guarded.assert_failed
  else DD.Guarded.suspended

/-- One completed call on the bounded queue with its result, for the calls it
shares with the unbounded queue; `none` when the call is a blocking one whose
wait predicate is false. -/
def Queue.call {α : Type} (q : Queue α) : DDqueue.Op α → Option (DDqueue.Ret α × Queue α)
  | .push val =>
    match q.push val with
    | some q1 => some (DDqueue.Ret.void, q1)
    | none => none
  | .pop =>
    match q.pop with
    | some (x, q1) => some (DDqueue.Ret.value x, q1)
    | none => none
  | .try_pop => some (DDqueue.Ret.optional q.try_pop.1, q.try_pop.2)

/-- A sequence of completed calls on the bounded queue, with the results in
order. -/
def Queue.calls {α : Type} (q : Queue α) :
    List (DDqueue.Op α) → Option (List (DDqueue.Ret α) × Queue α)
  | [] => some ([], q)
  | op :: ops =>
    match q.call op with
    | some (r, q1) =>
      match q1.calls ops with
      | some (rs, q2) => some (r :: rs, q2)
      | none => none
    | none => none

end DDqueue2

namespace DDthreadpool

/-- Wait predicate of `submit`: `[this] { return !running_ || !is_full(); }`. -/
def thread_pool.submit_wait {τ : Type} (p : thread_pool τ) : Bool :=
  !p.running_ || !p.is_full

/-- Wait predicate of the worker loop:
`[this] { return !running_ || !q_.empty(); }`. -/
def thread_pool.worker_wait {τ : Type} (p : thread_pool τ) : Bool :=
  !p.running_ || !p.q_.isEmpty

/-- Member `submit` with its `assert(!is_full())` spelled out. -/
def thread_pool.submit_asserting {τ : Type} (p : thread_pool τ) (f : τ) :
    DD.Guarded (thread_pool τ) :=
  if p.submit_wait then
    if !p.running_ then DD.Guarded.left_early
    else if !p.is_full then DD.Guarded.done { p with q_ := p.q_ ++ [f] }
    else DD.Guarded.assert_failed
  else DD.Guarded.suspended

/-- One pass of the worker loop with its `assert(!q_.empty())` and its
`q_.front()` spelled out; the result is the task the pass goes on to call. -/
def thread_pool.worker_asserting {τ : Type} (p : thread_pool τ) :
    DD.Guarded (τ × thread_pool τ) :=
  if p.worker_wait then
    if !p.running_ then DD.Guarded.left_early
    else if !p.q_.isEmpty then
      match p.q_ with
      | t :: rest => DD.Guarded.done (t, { p with q_ := rest })
      | [] => DD.Guarded.front_of_empty
    else DD.Guarded.assert_failed
  else DD.Guarded.suspended

/-- Effect of the calls `t()` the workers make, on the state the tasks act on:
a task is a change of that state, and the tasks are applied in the given
order. -/
def run_tasks {σ : Type} (ts : List (σ → σ)) (s : σ) : σ :=
  ts.foldl (fun acc t => t acc) s

end DDthreadpool

namespace DDthreadpool

/-- A run of the test of `main` with tasks numbered 0..99: the producer stores
tasks 0..9; then 90 times a worker takes a task and the producer stores the
next one; then the workers take the last 10. -/
def main_calls : List (Call Nat) :=
  (List.range 10).map Call.submit ++
    ((List.range 90).map fun i => [Call.worker, Call.submit (i + 10)]).flatten ++
    List.replicate 10 Call.worker

end DDthreadpool

namespace DDvector

/-- Largest value of the 32-bit `int` counter `new_size` of `emplace_back`. -/
def INT_MAX : Nat := 2147483647

/-- Number of values of `size_t` (64 bit). -/
def SIZE_RANGE : Nat := 2 ^ 64

/-- Data members of `DD::vector<T>`: `cap_`, `size_`, and the storage `ptr_`
points to, one slot per element of the allocation: `some x` is a constructed
object, `none` is raw memory (never constructed, or destroyed).  The null
pointer is the empty storage. -/
structure vector (α : Type) where
  cap_ : Nat
  size_ : Nat
  ptr_ : List (Option α)
  deriving DecidableEq, Repr

/-- Default constructor: `cap_ = 0`, `size_ = 0`, `ptr_ = nullptr`. -/
def vector.init {α : Type} : vector α :=
  { cap_ := 0, size_ := 0, ptr_ := [] }

/-- Member `alloc`: raw memory for `n` elements. -/
def alloc {α : Type} (n : Nat) : List (Option α) :=
  List.replicate n none

/-- Member `construct`: placement `new` of `x` at `p + i`.  `none` when the
slot lies outside the allocation. -/
def construct {α : Type} (p : List (Option α)) (i : Nat) (x : α) : Option (List (Option α)) :=
  if i < p.length then some (p.set i (some x)) else none

/-- Member `destroy`: destructor call on the object at `p + i`.  `none` when
there is no constructed object at that slot. -/
def destroy {α : Type} (p : List (Option α)) (i : Nat) : Option (List (Option α)) :=
  match p[i]? with
  | some (some _) => some (p.set i none)
  | _ => none

/-- Loop of the initializer-list constructor:
`for (auto &x : il) { construct(ptr_ + size_, x); ++size_; }`. -/
def init_loop {α : Type} : List α → Nat → List (Option α) → Option (Nat × List (Option α))
  | [], size_, p => some (size_, p)
  | x :: il, size_, p =>
    match construct p size_ x with
    | some p1 => init_loop il ((size_ + 1) % SIZE_RANGE) p1
    | none => none

/-- Constructor `vector(std::initializer_list<T> il)`:
`cap_(il.size()), ptr_(alloc(cap_))`, then the loop. -/
def vector.of_list {α : Type} (il : List α) : Option (vector α) :=
  match init_loop il 0 (alloc il.length) with
  | some (size_, p) => some { cap_ := il.length, size_ := size_, ptr_ := p }
  | none => none

/-- Loop of `clear`: `for (; size_ > 0; --size_) destroy(ptr_ + size_ - 1);`. -/
def clear_loop {α : Type} : Nat → List (Option α) → Option (List (Option α))
  | 0, p => some p
  | size_ + 1, p =>
    match destroy p size_ with
    | some p1 => clear_loop size_ p1
    | none => none

/-- Member `clear`: destroys the elements from the back; `size_` ends at 0 and
`cap_` is not touched. -/
def vector.clear {α : Type} (v : vector α) : Option (vector α) :=
  match clear_loop v.size_ v.ptr_ with
  | some p => some { v with size_ := 0, ptr_ := p }
  | none => none

/-- What a call of `emplace_back` or `push_back` is given: a value that lives
outside the vector (a temporary, or the constructor arguments themselves, as in
`v.emplace_back(1, c)`), or a reference to the element `v[k]` of the vector
itself, as in `v.push_back(v[0])`.  The member takes its arguments by
forwarding reference, so the value is read only when the new element is
constructed. -/
inductive Arg (α : Type) where
  | value (x : α)
  | element (k : Nat)
  deriving DecidableEq, Repr

/-- The value read through the argument at the time the new element is
constructed, `ptr_` being the storage a reference to an element points into.
`none` when the reference points at a slot that holds no object. -/
def Arg.read {α : Type} (ptr_ : List (Option α)) : Arg α → Option α
  | .value x => some x
  | .element k =>
    match ptr_[k]? with
    | some (some y) => some y
    | _ => none

/-- Copy loop of `emplace_back`:
`for (auto new_size = 0; new_size < size_; ++new_size)
   construct(new_ptr + new_size, std::move_if_noexcept(ptr_[new_size]));`
entered with counter `new_size`, old storage `ptr_` and new storage `new_ptr`;
the result is both storages after the loop.  `moved x` is the state in which
constructing from `std::move_if_noexcept(src)` leaves a source that held `x`:
`x` itself for a type that is copied, the moved-from state for a type with a
non-throwing move constructor.  The first argument after `size_` bounds the
number of iterations still to run.  `none` when an old slot holds no object,
when the new slot lies outside the new allocation, or when `++new_size` would
leave the range of `int`. -/
def copy_loop {α : Type} (moved : α → α) (size_ : Nat) :
    Nat → Nat → List (Option α) → List (Option α) →
      Option (List (Option α) × List (Option α))
  | 0, new_size, ptr_, new_ptr => if new_size < size_ then none else some (ptr_, new_ptr)
  | fuel + 1, new_size, ptr_, new_ptr =>
    if new_size < size_ then
      match ptr_[new_size]? with
      | some (some x) =>
        match construct new_ptr new_size x with
        | some p1 =>
          if new_size < INT_MAX then
            copy_loop moved size_ fuel (new_size + 1) (ptr_.set new_size (some (moved x))) p1
          else none
        | none => none
      | _ => none
    else some (ptr_, new_ptr)

/-- Member `emplace_back`: when `size_ == cap_` the capacity becomes
`cap_ != 0 ? cap_ * 2 : 1`, new storage is allocated and the old elements are
moved or copied over (the old storage is not released); then the new element
is constructed at `ptr_ + size_` from the forwarded argument, which is read at
that moment, and `size_` is incremented. -/
def vector.emplace_back {α : Type} (moved : α → α) (v : vector α) (arg : Arg α) :
    Option (vector α) :=
  let grown : Option (vector α × List (Option α)) :=
    if v.size_ = v.cap_ then
      let new_cap := if v.cap_ ≠ 0 then (v.cap_ * 2) % SIZE_RANGE else 1
      match copy_loop moved v.size_ v.size_ 0 v.ptr_ (alloc new_cap) with
      | some (old_ptr, new_ptr) => some ({ v with cap_ := new_cap, ptr_ := new_ptr }, old_ptr)
      | none => none
    else some (v, v.ptr_)
  match grown with
  | some (w, old_ptr) =>
    match arg.read old_ptr with
    | some x =>
      match construct w.ptr_ w.size_ x with
      | some p => some { w with size_ := (w.size_ + 1) % SIZE_RANGE, ptr_ := p }
      | none => none
    | none => none
  | none => none

/-- Member `push_back(const T &x)`: `emplace_back(x);`. -/
def vector.push_back {α : Type} (moved : α → α) (v : vector α) (arg : Arg α) :
    Option (vector α) :=
  v.emplace_back moved arg

/-- Member `pop_back`: `destroy(ptr_ + size_ - 1);` and nothing else.  `none`
when there is no constructed object at that slot. -/
def vector.pop_back {α : Type} (v : vector α) : Option (vector α) :=
  if v.size_ = 0 then none
  else
    match destroy v.ptr_ (v.size_ - 1) with
    | some p => some { v with ptr_ := p }
    | none => none

/-- Member `size`. -/
def vector.size {α : Type} (v : vector α) : Nat := v.size_

/-- Member `capacity`. -/
def vector.capacity {α : Type} (v : vector α) : Nat := v.cap_

/-- Member `empty`. -/
def vector.empty {α : Type} (v : vector α) : Bool := decide (v.size_ = 0)

/-- The objects in a run of slots; `none` when one of the slots holds no
object. -/
def objects {α : Type} : List (Option α) → Option (List α)
  | [] => some []
  | some x :: p =>
    match objects p with
    | some xs => some (x :: xs)
    | none => none
  | none :: _ => none

/-- The elements between `begin()` and `end()`, that is the first `size_` slots
of the storage; `none` when the storage is shorter or one of these slots holds
no object. -/
def vector.contents {α : Type} (v : vector α) : Option (List α) :=
  if v.size_ ≤ v.ptr_.length then objects (v.ptr_.take v.size_) else none

/-- A sequence of `emplace_back` calls with values from outside the vector;
the result lists `size()` and `capacity()` after each call and gives the final
vector. -/
def vector.emplace_all {α : Type} (moved : α → α) (v : vector α) :
    List α → Option (List (Nat × Nat) × vector α)
  | [] => some ([], v)
  | x :: xs =>
    match v.emplace_back moved (Arg.value x) with
    | some v1 =>
      match v1.emplace_all moved xs with
      | some (tr, v2) => some ((v1.size, v1.capacity) :: tr, v2)
      | none => none
    | none => none

/-- State of a `std::string` after it was moved from: the empty string, as the
common implementations of the standard library leave it. -/
def moved_from_string (_ : String) : String := ""

/-- The strings `std::string(1, c)` for `c` from `a` to `z`, as built by the
loop of the test. -/
def letters : List String :=
  (List.range 26).map fun k => String.singleton (Char.ofNat (97 + k))

/-- The test of `main`: `vector<std::string> v{"1", "2", "3"}`, `v.clear()`,
then `v.emplace_back(1, c)` for the 26 letters. -/
def main_test : Option (List (Nat × Nat) × vector String) :=
  match vector.of_list ["1", "2", "3"] with
  | some v =>
    match v.clear with
    | some v1 => v1.emplace_all moved_from_string letters
    | none => none
  | none => none

end DDvector

namespace DDshared_ptr

/-- Largest value of the 32-bit `int` member `count_`. -/
def INT_MAX : Int := 2147483647

/-- Smallest value of the 32-bit `int` member `count_`. -/
def INT_MIN : Int := -2147483648

/-- Class `ref_count`: the control block, `int count_ = 1`. -/
structure ref_count where
  count_ : Int
  deriving DecidableEq, Repr

/-- A control block as `new ref_count()` creates it. -/
def ref_count.init : ref_count :=
  { count_ := 1 }

/-- Member `use_count`: `return count_;`. -/
def ref_count.use_count (r : ref_count) : Int :=
  r.count_

/-- Member `inc_ref`: `return ++count_;`, with the value returned and the block
afterwards.  `none` when the increment would leave the range of `int`. -/
def ref_count.inc_ref (r : ref_count) : Option (Int × ref_count) :=
  if r.count_ < INT_MAX then some (r.count_ + 1, { count_ := r.count_ + 1 }) else none

/-- Member `dec_ref`: `return --count_;`, with the value returned and the block
afterwards.  `none` when the decrement would leave the range of `int`. -/
def ref_count.dec_ref (r : ref_count) : Option (Int × ref_count) :=
  if INT_MIN < r.count_ then some (r.count_ - 1, { count_ := r.count_ - 1 }) else none

/-- Data members of `DD::shared_ptr<T>`: `T *ptr_` and `ref_count *rep_`, each
the null pointer (`none`) or an address. -/
structure shared_ptr where
  ptr_ : Option Nat
  rep_ : Option Nat
  deriving DecidableEq, Repr

/-- State of a program that uses `shared_ptr`: the control blocks created by
`new ref_count()` so far, by address; the addresses handed to `delete rep_` and
to `delete ptr_`, in order; the number of objects created by `new T` so far
(their addresses are the numbers below it); and the `shared_ptr` objects
declared so far, by name, `none` once the lifetime of the object has ended. -/
structure State where
  reps : List ref_count
  deleted_reps : List Nat
  deleted_ptrs : List Nat
  objects : Nat
  vars : List (Option shared_ptr)
  deriving DecidableEq, Repr

/-- Start of the program: nothing allocated, nothing declared. -/
def State.init : State :=
  { reps := [], deleted_reps := [], deleted_ptrs := [], objects := 0, vars := [] }

/-- The `shared_ptr` object named `i`, when its lifetime has begun and not
ended. -/
def State.var (s : State) (i : Nat) : Option shared_ptr :=
  match s.vars[i]? with
  | some (some v) => some v
  | _ => none

/-- Default constructor `shared_ptr()`: both members null.  The new object gets
the next name. -/
def State.ctor_default (s : State) : State :=
  { s with vars := s.vars ++ [some { ptr_ := none, rep_ := none }] }

/-- Constructor `shared_ptr(std::nullptr_t)`: delegates to the default
constructor. -/
def State.ctor_nullptr (s : State) : State :=
  s.ctor_default

/-- Constructor `shared_ptr(T *ptr)`: `ptr_(ptr)`, and
`if (ptr) rep_ = new ref_count();`. -/
def State.ctor_ptr (s : State) (ptr : Option Nat) : State :=
  match ptr with
  | some p =>
    { s with
      reps := s.reps ++ [ref_count.init]
      vars := s.vars ++ [some { ptr_ := some p, rep_ := some s.reps.length }] }
  | none => { s with vars := s.vars ++ [some { ptr_ := none, rep_ := none }] }

/-- Move constructor: `ptr_(rhs.ptr_), rep_(rhs.rep_)`, then both members of
`rhs` are set to null.  `none` when `rhs` is not a live object. -/
def State.ctor_move (s : State) (rhs : Nat) : Option State :=
  match s.var rhs with
  | none => none
  | some r =>
    some { s with
      vars := s.vars.set rhs (some { ptr_ := none, rep_ := none }) ++
        [some { ptr_ := r.ptr_, rep_ := r.rep_ }] }

/-- Destructor: `if (rep_ != nullptr && rep_->dec_ref() == 0)
{ delete ptr_; delete rep_; }`; the lifetime of the object ends.  `none` when
`i` is not a live object, or the decrement overflows. -/
def State.dtor (s : State) (i : Nat) : Option State :=
  match s.var i with
  | none => none
  | some v =>
    match v.rep_ with
    | none => some { s with vars := s.vars.set i none }
    | some b =>
      match s.reps[b]? with
      | none => none
      | some c =>
        match c.dec_ref with
        | none => none
        | some (n, c1) =>
          if n = 0 then
            some { s with
              reps := s.reps.set b c1
              deleted_ptrs := s.deleted_ptrs ++ v.ptr_.toList
              deleted_reps := s.deleted_reps ++ [b]
              vars := s.vars.set i none }
          else some { s with reps := s.reps.set b c1, vars := s.vars.set i none }

/-- Member `swap`: `std::swap(ptr_, rhs.ptr_); std::swap(rep_, rhs.rep_);`.
`none` when one of the two is not a live object. -/
def State.swap (s : State) (i rhs : Nat) : Option State :=
  match s.var i, s.var rhs with
  | some a, some b =>
    some { s with
      vars := (s.vars.set i (some { ptr_ := b.ptr_, rep_ := b.rep_ })).set rhs
        (some { ptr_ := a.ptr_, rep_ := a.rep_ }) }
  | _, _ => none

/-- Move assignment `operator=(shared_ptr &&rhs)`:
`shared_ptr(std::move(rhs)).swap(*this);` the temporary is move-constructed,
swapped with `*this`, and destroyed at the end of the statement. -/
def State.assign_move (s : State) (i rhs : Nat) : Option State :=
  match s.ctor_move rhs with
  | none => none
  | some s1 =>
    match s1.swap s.vars.length i with
    | none => none
    | some s2 => s2.dtor s.vars.length

/-- Member `reset(T *ptr)`: `shared_ptr(ptr).swap(*this);`. -/
def State.reset (s : State) (i : Nat) (ptr : Option Nat) : Option State :=
  match (s.ctor_ptr ptr).swap s.vars.length i with
  | none => none
  | some s2 => s2.dtor s.vars.length

/-- Member `use_count`: `rep_ != nullptr ? rep_->use_count() : 0`.  `none` when
`i` is not a live object. -/
def State.use_count (s : State) (i : Nat) : Option Int :=
  match s.var i with
  | none => none
  | some v =>
    match v.rep_ with
    | none => some 0
    | some b =>
      match s.reps[b]? with
      | some c => some c.use_count
      | none => none

/-- Member `unique`: `use_count() == 1`. -/
def State.unique (s : State) (i : Nat) : Option Bool :=
  match s.use_count i with
  | some n => some (decide (n = 1))
  | none => none

/-- The expression `new T(...)`: a fresh object, at the next address. -/
def State.new_object (s : State) : Nat × State :=
  (s.objects, { s with objects := s.objects + 1 })

/-- Operations of a program on its `shared_ptr` objects.  A pointer handed to a
constructor or to `reset` is either null or comes straight from a `new`
expression, as in `shared_ptr<int>(new int(1024))` and in `make_shared`.  The
copy constructor and the copy assignment are not among the operations: the
copy constructor is written `ptr_(rhs.ptr), rep_(rhs.rep_)`, and `ptr` is not a
member of the class, so neither it nor the copy assignment
`shared_ptr(rhs).swap(*this)` built on it can be instantiated, and no program
that copies a `shared_ptr` exists. -/
inductive Op where
  | default
  | nullptr
  | from_new
  | from_null
  | move (rhs : Nat)
  | destroy (i : Nat)
  | move_assign (i rhs : Nat)
  | swap (i rhs : Nat)
  | reset_new (i : Nat)
  | reset_null (i : Nat)
  deriving DecidableEq, Repr

/-- Effect of one operation.  `none` when the operation names an object that is
not alive, or a count leaves the range of `int`. -/
def State.step (s : State) : Op → Option State
  | .default => some s.ctor_default
  | .nullptr => some s.ctor_nullptr
  | .from_new => some (s.new_object.2.ctor_ptr (some s.new_object.1))
  | .from_null => some (s.ctor_ptr none)
  | .move rhs => s.ctor_move rhs
  | .destroy i => s.dtor i
  | .move_assign i rhs => s.assign_move i rhs
  | .swap i rhs => s.swap i rhs
  | .reset_new i => s.new_object.2.reset i (some s.new_object.1)
  | .reset_null i => s.reset i none

/-- Effect of a sequence of operations. -/
def State.exec (s : State) : List Op → Option State
  | [] => some s
  | op :: ops =>
    match s.step op with
    | some s1 => s1.exec ops
    | none => none

/-- Whether a slot of `vars` is a live `shared_ptr` whose `rep_` is the control
block `b`. -/
def refers (b : Nat) : Option shared_ptr → Bool
  | some v => decide (v.rep_ = some b)
  | none => false

/-- Number of live `shared_ptr` objects that refer to the control block `b`. -/
def State.owners (s : State) (b : Nat) : Nat :=
  s.vars.countP (refers b)

/-- Consistency of a state: every live `shared_ptr` is either empty or refers
to a control block that was created and not deleted and to an object that was
created and not deleted; two live `shared_ptr`s share the control block exactly
when they share the object; the count of every control block that was not
deleted is the number of its live owners, which is at least one; every deleted
control block or object was created, and none was deleted twice. -/
structure State.consistent (s : State) : Prop where
  live : ∀ v, some v ∈ s.vars →
    (v.rep_ = none → v.ptr_ = none) ∧
    ∀ b, v.rep_ = some b →
      b < s.reps.length ∧ b ∉ s.deleted_reps ∧
      ∃ p, v.ptr_ = some p ∧ p < s.objects ∧ p ∉ s.deleted_ptrs
  paired : ∀ v w, some v ∈ s.vars → some w ∈ s.vars → v.rep_.isSome = true →
    w.rep_.isSome = true → (v.rep_ = w.rep_ ↔ v.ptr_ = w.ptr_)
  counted : ∀ b c, s.reps[b]? = some c → b ∉ s.deleted_reps →
    c.count_ = (s.owners b : Int) ∧ 1 ≤ s.owners b
  created : (∀ b ∈ s.deleted_reps, b < s.reps.length) ∧
    (∀ p ∈ s.deleted_ptrs, p < s.objects)
  once : s.deleted_reps.Nodup ∧ s.deleted_ptrs.Nodup

end DDshared_ptr

namespace DDunique_ptr

/-- Data member of `DD::unique_ptr<T>`: `T *ptr_`, the null pointer (`none`) or
an address. -/
structure unique_ptr where
  ptr_ : Option Nat
  deriving DecidableEq, Repr

/-- State of a program that uses `unique_ptr`: the addresses handed to a
`delete` expression so far, in order (a `delete` of the null pointer has no
effect and leaves no entry), and the `unique_ptr` objects declared so far, by
name, `none` once the lifetime of the object has ended. -/
structure State where
  deleted : List Nat
  vars : List (Option unique_ptr)
  deriving DecidableEq, Repr

/-- The `unique_ptr` object named `i`, when its lifetime has begun and not
ended. -/
def State.var (s : State) (i : Nat) : Option unique_ptr :=
  match s.vars[i]? with
  | some (some u) => some u
  | _ => none

/-- Default constructor and constructor from `nullptr`: `ptr_ = nullptr`.  The
new object gets the next name. -/
def State.ctor_default (s : State) : State :=
  { s with vars := s.vars ++ [some { ptr_ := none }] }

/-- Constructor `unique_ptr(T *ptr)`: `ptr_(ptr)`. -/
def State.ctor_ptr (s : State) (ptr : Option Nat) : State :=
  { s with vars := s.vars ++ [some { ptr_ := ptr }] }

/-- Member `get`: `return ptr_;`.  `none` when `i` is not a live object. -/
def State.get (s : State) (i : Nat) : Option (Option Nat) :=
  match s.var i with
  | some u => some u.ptr_
  | none => none

/-- Member `release`: `return std::exchange(ptr_, nullptr);`, with the pointer
returned and the state afterwards.  `none` when `i` is not a live object. -/
def State.release (s : State) (i : Nat) : Option (Option Nat × State) :=
  match s.var i with
  | some u => some (u.ptr_, { s with vars := s.vars.set i (some { ptr_ := none }) })
  | none => none

/-- Member `reset(T *ptr)`: `delete std::exchange(ptr_, ptr);`.  `none` when
`i` is not a live object. -/
def State.reset (s : State) (i : Nat) (ptr : Option Nat) : Option State :=
  match s.var i with
  | some u =>
    some { deleted := s.deleted ++ u.ptr_.toList, vars := s.vars.set i (some { ptr_ := ptr }) }
  | none => none

/-- Move assignment `operator=(unique_ptr &&rhs)`: `reset(rhs.release());` the
argument `rhs.release()` is evaluated first, then `reset` runs on `*this`. -/
def State.move_assign (s : State) (i rhs : Nat) : Option State :=
  match s.release rhs with
  | some (p, s1) => s1.reset i p
  | none => none

/-- Move constructor: `ptr_(rhs.release())`.  The new object gets the next
name. -/
def State.ctor_move (s : State) (rhs : Nat) : Option State :=
  match s.release rhs with
  | some (p, s1) => some { s1 with vars := s1.vars ++ [some { ptr_ := p }] }
  | none => none

/-- Destructor: `delete ptr_;` the lifetime of the object ends.  `none` when
`i` is not a live object. -/
def State.dtor (s : State) (i : Nat) : Option State :=
  match s.var i with
  | some u => some { deleted := s.deleted ++ u.ptr_.toList, vars := s.vars.set i none }
  | none => none

/-- Member `swap`: `std::swap(ptr_, rhs.ptr_);`.  `none` when one of the two is
not a live object. -/
def State.swap (s : State) (i rhs : Nat) : Option State :=
  match s.var i, s.var rhs with
  | some a, some b =>
    some { s with
      vars := (s.vars.set i (some { ptr_ := b.ptr_ })).set rhs (some { ptr_ := a.ptr_ }) }
  | _, _ => none

end DDunique_ptr

/-! Theorems. -/

namespace DDqueue2

variable {α : Type}

theorem to_int_zero : to_int 0 = 0 := by decide

/-- A capacity that fits the `int` field is stored unchanged. -/
theorem to_int_of_lt {c : Nat} (h : c < 2 ^ 31) : to_int c = (c : Int) := by
  have h1 : c % 2 ^ 32 = c := Nat.mod_eq_of_lt (by omega)
  simp only [to_int, h1]
  rw [if_pos h]

/-- A non-negative `int` below `2^64` converts to `size_t` unchanged. -/
theorem to_size_t_natCast {c : Nat} (h : c < 2 ^ 64) : to_size_t (c : Int) = c := by
  unfold to_size_t
  have : ((c : Int) % 2 ^ 64) = (c : Int) := Int.emod_eq_of_lt (by omega) (by exact_mod_cast h)
  rw [this]
  simp

/-- With a stored bound that is not positive, `is_full` is false whatever the
queue holds. -/
theorem is_full_of_nonpos (q : Queue α) (h : q.max_queue_size_ ≤ 0) : q.is_full = false := by
  unfold Queue.is_full
  have : ¬ (q.max_queue_size_ > 0) := by omega
  simp [this]

/-- With a capacity that fits the `int` field, `is_full` compares the length
with that capacity. -/
theorem is_full_in_range (xs : List α) {c : Nat} (h0 : 0 < c) (h : c < 2 ^ 31) :
    ({ q_ := xs, max_queue_size_ := to_int c } : Queue α).is_full = decide (c ≤ xs.length) := by
  unfold Queue.is_full
  simp only [to_int_of_lt h]
  rw [to_size_t_natCast (by omega)]
  have : ((c : Int) > 0) := by exact_mod_cast h0
  simp [this]

end DDqueue2

namespace DDqueue2

variable {α : Type}

/-- The branch taken by `try_push`: it returns `false` exactly when `is_full()`
holds; on `false` the whole queue is unchanged; on `true` the stored sequence
is the old one with the item appended at the back, and the bound is
unchanged. -/
theorem try_push_spec (q : Queue α) (val : α) :
    ((q.try_push val).1 = false ↔ q.is_full = true) ∧
    ((q.try_push val).1 = false → (q.try_push val).2 = q) ∧
    ((q.try_push val).1 = true →
      (q.try_push val).2.q_ = q.q_ ++ [val] ∧
      (q.try_push val).2.max_queue_size_ = q.max_queue_size_) := by
  unfold Queue.try_push
  cases hf : q.is_full <;> simp

/-- Instance of `try_push_spec`: a queue of capacity 2 holding 1, 2 refuses 3
and stays as it is; a queue of capacity 2 holding 1 accepts 2 at the back. -/
theorem try_push_spec_witness :
    (({ q_ := [1, 2], max_queue_size_ := 2 } : Queue Nat).try_push 3).2
        = { q_ := [1, 2], max_queue_size_ := 2 } ∧
    (({ q_ := [1], max_queue_size_ := 2 } : Queue Nat).try_push 2).2.q_ = [1, 2] :=
  ⟨(try_push_spec ({ q_ := [1, 2], max_queue_size_ := 2 } : Queue Nat) 3).2.1 (by decide),
   ((try_push_spec ({ q_ := [1], max_queue_size_ := 2 } : Queue Nat) 2).2.2 (by decide)).1⟩

/-- C4: `try_pop` returns the empty optional exactly when the queue is empty,
and then leaves the queue unchanged; on a queue whose stored sequence is `x`
followed by `rest` it returns `x` and leaves `rest`.  This holds for the bounded
queue of `DDqueue2.cpp` and for the unbounded queue of `DDqueue.cpp`. -/
theorem try_pop_spec (q : Queue α) (u : DDqueue.Queue α) :
    ((q.try_pop.1 = none ↔ q.q_ = []) ∧
      (q.q_ = [] → q.try_pop.2 = q) ∧
      (∀ x rest, q.q_ = x :: rest →
        q.try_pop.1 = some x ∧ q.try_pop.2.q_ = rest ∧
        q.try_pop.2.max_queue_size_ = q.max_queue_size_)) ∧
    ((u.try_pop.1 = none ↔ u.q_ = []) ∧
      (u.q_ = [] → u.try_pop.2 = u) ∧
      (∀ x rest, u.q_ = x :: rest → u.try_pop.1 = some x ∧ u.try_pop.2.q_ = rest)) := by
  refine ⟨?_, ?_⟩
  · unfold Queue.try_pop
    cases hq : q.q_ <;> simp
  · unfold DDqueue.Queue.try_pop
    cases hu : u.q_ <;> simp

/-- Instance of `try_pop_spec`: both queues holding 5, 6 hand out 5 and keep 6;
both queues, when empty, stay as they are. -/
theorem try_pop_spec_witness :
    ((({ q_ := [5, 6], max_queue_size_ := 10 } : Queue Nat).try_pop.1 = some 5 ∧
      ({ q_ := [5, 6], max_queue_size_ := 10 } : Queue Nat).try_pop.2.q_ = [6]) ∧
     (({ q_ := [5, 6] } : DDqueue.Queue Nat).try_pop.1 = some 5 ∧
      ({ q_ := [5, 6] } : DDqueue.Queue Nat).try_pop.2.q_ = [6])) ∧
    (({ q_ := [], max_queue_size_ := 10 } : Queue Nat).try_pop.2
        = { q_ := [], max_queue_size_ := 10 } ∧
     ({ q_ := [] } : DDqueue.Queue Nat).try_pop.2 = { q_ := [] }) :=
  by
  have h := try_pop_spec ({ q_ := [5, 6], max_queue_size_ := 10 } : Queue Nat)
    ({ q_ := [5, 6] } : DDqueue.Queue Nat)
  have e := try_pop_spec ({ q_ := [], max_queue_size_ := 10 } : Queue Nat)
    ({ q_ := [] } : DDqueue.Queue Nat)
  exact ⟨⟨⟨(h.1.2.2 5 [6] rfl).1, (h.1.2.2 5 [6] rfl).2.1⟩, h.2.2.2 5 [6] rfl⟩,
    ⟨e.1.2.1 rfl, e.2.2.1 rfl⟩⟩

/-- C6: capacity zero means unbounded.  In every state of a bounded queue
constructed with capacity 0, whatever sequence `xs` it stores, `is_full()` is
false, `push` is enabled and appends, and `try_push` returns `true` and
appends.  In every state of a thread pool constructed with capacity 0,
`is_full()` is false, `submit` is never left waiting, and on a running pool it
appends the task. -/
theorem capacity_zero_unbounded (xs : List α) (val : α)
    (ts : List DDthreadpool.thread) (running : Bool) :
    (({ (Queue.init 0 : Queue α) with q_ := xs }).is_full = false ∧
      ({ (Queue.init 0 : Queue α) with q_ := xs }).push val
        = some { (Queue.init 0 : Queue α) with q_ := xs ++ [val] } ∧
      ({ (Queue.init 0 : Queue α) with q_ := xs }).try_push val
        = (true, { (Queue.init 0 : Queue α) with q_ := xs ++ [val] })) ∧
    (({ (DDthreadpool.thread_pool.init 0 : DDthreadpool.thread_pool α) with
          threads_ := ts, q_ := xs, running_ := running }).is_full = false ∧
      (({ (DDthreadpool.thread_pool.init 0 : DDthreadpool.thread_pool α) with
          threads_ := ts, q_ := xs, running_ := running }).submit val).1
        ≠ DDthreadpool.Exit.waiting ∧
      ({ (DDthreadpool.thread_pool.init 0 : DDthreadpool.thread_pool α) with
          threads_ := ts, q_ := xs, running_ := true }).submit val
        = (DDthreadpool.Exit.returned,
           { (DDthreadpool.thread_pool.init 0 : DDthreadpool.thread_pool α) with
             threads_ := ts, q_ := xs ++ [val], running_ := true })) := by
  have hq : ({ (Queue.init 0 : Queue α) with q_ := xs }).is_full = false :=
    is_full_of_nonpos _ (by simp [Queue.init, to_int_zero])
  refine ⟨⟨hq, ?_, ?_⟩, ?_, ?_, ?_⟩
  · simp [Queue.push, hq]
  · simp [Queue.try_push, hq]
  · simp [DDthreadpool.thread_pool.is_full, DDthreadpool.thread_pool.init]
  · cases running <;>
      simp [DDthreadpool.thread_pool.submit, DDthreadpool.thread_pool.is_full,
        DDthreadpool.thread_pool.init]
  · simp [DDthreadpool.thread_pool.submit, DDthreadpool.thread_pool.is_full,
      DDthreadpool.thread_pool.init]

end DDqueue2

namespace DDqueue2

variable {α : Type}

/-- Every completed call either leaves the stored sequence, or appends the
accepted value at the back, or removes the returned value from the front; the
bound never changes. -/
theorem Run.step_cases (r r1 : Run α) (op : Op α) (h : r.step op = some r1) :
    r1.queue.max_queue_size_ = r.queue.max_queue_size_ ∧
    ((r1.queue.q_ = r.queue.q_ ∧ r1.accepted = r.accepted ∧ r1.returned = r.returned) ∨
     (∃ v, r.queue.is_full = false ∧ r1.queue.q_ = r.queue.q_ ++ [v] ∧
        r1.accepted = r.accepted ++ [v] ∧ r1.returned = r.returned) ∨
     (∃ x, r.queue.q_ = x :: r1.queue.q_ ∧
        r1.accepted = r.accepted ∧ r1.returned = r.returned ++ [x])) := by
  cases op with
  | push val =>
    simp only [Run.step, Queue.push] at h
    cases hf : r.queue.is_full <;> simp [hf] at h
    subst h
    exact ⟨rfl, Or.inr (Or.inl ⟨val, rfl, rfl, rfl, rfl⟩)⟩
  | pop =>
    simp only [Run.step, Queue.pop] at h
    cases hq : r.queue.q_ with
    | nil => simp [hq] at h
    | cons x rest =>
      simp [hq] at h
      subst h
      exact ⟨rfl, Or.inr (Or.inr ⟨x, rfl, rfl, rfl⟩)⟩
  | try_push val =>
    simp only [Run.step, Queue.try_push] at h
    cases hf : r.queue.is_full <;> simp [hf] at h
    · subst h
      exact ⟨rfl, Or.inr (Or.inl ⟨val, rfl, rfl, rfl, rfl⟩)⟩
    · subst h
      exact ⟨rfl, Or.inl ⟨rfl, rfl, rfl⟩⟩
  | try_pop =>
    simp only [Run.step, Queue.try_pop] at h
    cases hq : r.queue.q_ with
    | nil =>
      simp [hq] at h
      subst h
      exact ⟨rfl, Or.inl ⟨hq, rfl, rfl⟩⟩
    | cons x rest =>
      simp [hq] at h
      subst h
      exact ⟨rfl, Or.inr (Or.inr ⟨x, rfl, rfl, rfl⟩)⟩

/-- A property kept by every completed call is kept by every sequence of
completed calls. -/
theorem Run.exec_invariant (P : Run α → Prop)
    (hstep : ∀ (r r1 : Run α) (op : Op α), P r → r.step op = some r1 → P r1) :
    ∀ (ops : List (Op α)) (r r1 : Run α), P r → r.exec ops = some r1 → P r1 := by
  intro ops
  induction ops with
  | nil =>
    intro r r1 hP h
    simp only [Run.exec, Option.some.injEq] at h
    exact h ▸ hP
  | cons op ops ih =>
    intro r r1 hP h
    simp only [Run.exec] at h
    cases hs : r.step op with
    | none => simp [hs] at h
    | some r2 =>
      simp only [hs] at h
      exact ih r2 r1 (hstep r r2 op hP hs) h

/-- Capacity bound for a capacity that fits the `int` field: from the empty
queue built with `0 < c < 2^31`, every sequence of completed calls leaves at
most `c` stored elements. -/
theorem Run.exec_length_le (c : Nat) (h0 : 0 < c) (hc : c < 2 ^ 31)
    (ops : List (Op α)) (r : Run α)
    (h : (Run.start (Queue.init c : Queue α)).exec ops = some r) :
    r.queue.q_.length ≤ c := by
  have key := Run.exec_invariant
    (fun s : Run α => s.queue.max_queue_size_ = to_int c ∧ s.queue.q_.length ≤ c)
    ?_ ops (Run.start (Queue.init c)) r (by simp [Run.start, Queue.init]) h
  · exact key.2
  · intro s s1 op hP hs
    obtain ⟨hm, hcase⟩ := Run.step_cases s s1 op hs
    refine ⟨hm.trans hP.1, ?_⟩
    rcases hcase with hc1 | ⟨v, hf, h1, -, -⟩ | ⟨x, h1, -, -⟩
    · rw [hc1.1]; exact hP.2
    · have hfull := is_full_in_range s.queue.q_ h0 hc
      have hs_eq : s.queue = { q_ := s.queue.q_, max_queue_size_ := to_int c } := by
        cases hq : s.queue with
        | mk xs m =>
          have : m = to_int c := by have := hP.1; rw [hq] at this; exact this
          simp [this]
      rw [← hs_eq, hf] at hfull
      have : ¬ c ≤ s.queue.q_.length := by
        intro hle
        simp [hle] at hfull
      rw [h1, List.length_append, List.length_singleton]
      omega
    · have := hP.2
      rw [h1, List.length_cons] at this
      omega

/-- With a stored bound that is not positive, `n` calls of `try_push` all
succeed and append `n` elements. -/
theorem Run.exec_try_push_unbounded (v : α) (n : Nat) :
    ∀ r : Run α, r.queue.max_queue_size_ ≤ 0 →
      r.exec (List.replicate n (Op.try_push v)) =
        some { queue := { r.queue with q_ := r.queue.q_ ++ List.replicate n v },
               accepted := r.accepted ++ List.replicate n v,
               returned := r.returned } := by
  induction n with
  | zero => intro r _; simp [Run.exec]
  | succ n ih =>
    intro r hr
    have hf : r.queue.is_full = false := is_full_of_nonpos _ hr
    rw [List.replicate_succ, Run.exec]
    simp only [Run.step, Queue.try_push, hf, Bool.false_eq_true, if_false]
    rw [ih _ (by exact hr)]
    simp [List.replicate_succ, List.append_assoc]

/-- With a stored bound that is not positive, `n` calls of the blocking `push`
are all enabled and append `n` elements. -/
theorem Run.exec_push_unbounded (v : α) (n : Nat) :
    ∀ r : Run α, r.queue.max_queue_size_ ≤ 0 →
      r.exec (List.replicate n (Op.push v)) =
        some { queue := { r.queue with q_ := r.queue.q_ ++ List.replicate n v },
               accepted := r.accepted ++ List.replicate n v,
               returned := r.returned } := by
  induction n with
  | zero => intro r _; simp [Run.exec]
  | succ n ih =>
    intro r hr
    have hf : r.queue.is_full = false := is_full_of_nonpos _ hr
    rw [List.replicate_succ, Run.exec]
    simp only [Run.step, Queue.push, hf, Bool.not_false, if_true]
    rw [ih _ (by exact hr)]
    simp [List.replicate_succ, List.append_assoc]

end DDqueue2

namespace DDqueue2

variable {α : Type}

/-- With a capacity `c` that fits the `int` field, `k` blocking pushes are all
enabled as long as the queue ends with at most `c` elements. -/
theorem Run.exec_push_in_range (v : α) (c : Nat) (h0 : 0 < c) (hc : c < 2 ^ 31) (k : Nat) :
    ∀ r : Run α, r.queue.max_queue_size_ = to_int c → r.queue.q_.length + k ≤ c →
      r.exec (List.replicate k (Op.push v)) =
        some { queue := { q_ := r.queue.q_ ++ List.replicate k v, max_queue_size_ := to_int c },
               accepted := r.accepted ++ List.replicate k v,
               returned := r.returned } := by
  induction k with
  | zero =>
    intro r hm _
    obtain ⟨⟨xs, m⟩, acc, ret⟩ := r
    simp only at hm
    simp [Run.exec, hm]
  | succ k ih =>
    intro r hm hlen
    obtain ⟨⟨xs, m⟩, acc, ret⟩ := r
    simp only at hm hlen
    subst hm
    have hf : ({ q_ := xs, max_queue_size_ := to_int c } : Queue α).is_full = false := by
      rw [is_full_in_range xs h0 hc]
      simp only [decide_eq_false_iff_not]
      omega
    rw [List.replicate_succ, Run.exec]
    simp only [Run.step, Queue.push, hf, Bool.not_false, if_true]
    rw [ih _ (by rfl) (by simp only [List.length_append, List.length_singleton]; omega)]
    simp [List.replicate_succ, List.append_assoc]

/-- Backpressure for a capacity that fits the `int` field: into the empty queue
built with `0 < c < 2^31`, exactly `c` blocking pushes are enabled; the next
one is suspended and `try_push` is refused. -/
theorem push_exactly_capacity_in_range (v : α) (c : Nat) (h0 : 0 < c) (hc : c < 2 ^ 31) :
    (Run.start (Queue.init c : Queue α)).exec (List.replicate c (Op.push v)) =
      some { queue := { q_ := List.replicate c v, max_queue_size_ := to_int c },
             accepted := List.replicate c v, returned := [] } ∧
    ({ q_ := List.replicate c v, max_queue_size_ := to_int c } : Queue α).push v = none ∧
    (({ q_ := List.replicate c v, max_queue_size_ := to_int c } : Queue α).try_push v).1
      = false := by
  have hfull : ({ q_ := List.replicate c v, max_queue_size_ := to_int c } : Queue α).is_full
      = true := by
    rw [is_full_in_range _ h0 hc]
    simp
  refine ⟨?_, ?_, ?_⟩
  · have := Run.exec_push_in_range v c h0 hc c (Run.start (Queue.init c)) rfl
      (by simp [Run.start, Queue.init])
    simpa [Run.start, Queue.init] using this
  · simp [Queue.push, hfull]
  · simp [Queue.try_push, hfull]

/-- The capacity-2 scenario: on the empty queue built with capacity 2 the pushes
of `a` and `b` are enabled; a third push, of `c`, is suspended and `try_push`
refuses it; one `pop` returns `a`; then the push of `c` is enabled, and the next
two pops return `b` and `c`. -/
theorem backpressure_capacity_two (a b c : α) :
    (Queue.init 2 : Queue α).push a = some { q_ := [a], max_queue_size_ := 2 } ∧
    ({ q_ := [a], max_queue_size_ := 2 } : Queue α).push b
      = some { q_ := [a, b], max_queue_size_ := 2 } ∧
    ({ q_ := [a, b], max_queue_size_ := 2 } : Queue α).push c = none ∧
    (({ q_ := [a, b], max_queue_size_ := 2 } : Queue α).try_push c).1 = false ∧
    ({ q_ := [a, b], max_queue_size_ := 2 } : Queue α).pop
      = some (a, { q_ := [b], max_queue_size_ := 2 }) ∧
    ({ q_ := [b], max_queue_size_ := 2 } : Queue α).push c
      = some { q_ := [b, c], max_queue_size_ := 2 } ∧
    ({ q_ := [b, c], max_queue_size_ := 2 } : Queue α).pop
      = some (b, { q_ := [c], max_queue_size_ := 2 }) ∧
    ({ q_ := [c], max_queue_size_ := 2 } : Queue α).pop
      = some (c, { q_ := [], max_queue_size_ := 2 }) := by
  have h2 : to_int 2 = 2 := by decide
  have hs : to_size_t 2 = 2 := by decide
  simp [Queue.init, Queue.push, Queue.pop, Queue.try_push, Queue.is_full, h2, hs]

/-- With a stored bound that is not positive the blocking `push` is enabled. -/
theorem push_enabled_of_nonpos (q : Queue α) (h : q.max_queue_size_ ≤ 0) (v : α) :
    (q.push v).isSome = true := by
  simp [Queue.push, is_full_of_nonpos q h]

/-- With a stored bound that is not positive `try_push` returns `true`. -/
theorem try_push_accepts_of_nonpos (q : Queue α) (h : q.max_queue_size_ ≤ 0) (v : α) :
    (q.try_push v).1 = true := by
  simp [Queue.try_push, is_full_of_nonpos q h]

/-- With a stored bound that is not positive, `n` calls of `try_push` on the
queue `q` all succeed and leave `n` more elements than `q` held. -/
theorem try_push_run_of_nonpos (v : α) (n : Nat) (q : Queue α) (h : q.max_queue_size_ ≤ 0) :
    ∃ r : Run α,
      (Run.start q).exec (List.replicate n (Op.try_push v)) = some r ∧
      r.accepted.length = n ∧
      r.queue.q_.length = q.q_.length + n := by
  refine ⟨_, Run.exec_try_push_unbounded v n (Run.start q) h, ?_, ?_⟩
  · simp [Run.start]
  · simp [Run.start]

/-- With a stored bound that is not positive, `n` blocking pushes on the queue
`q` are all enabled, and so is the next one. -/
theorem push_run_of_nonpos (v : α) (n : Nat) (q : Queue α) (h : q.max_queue_size_ ≤ 0) :
    ∃ r : Run α,
      (Run.start q).exec (List.replicate n (Op.push v)) = some r ∧
      r.queue.q_.length = q.q_.length + n ∧
      r.returned = [] ∧
      (r.queue.push v).isSome = true ∧
      (r.queue.try_push v).1 = true := by
  refine ⟨_, Run.exec_push_unbounded v n (Run.start q) h, ?_, rfl, ?_, ?_⟩
  · simp [Run.start]
  · exact push_enabled_of_nonpos _ (by exact h) v
  · exact try_push_accepts_of_nonpos _ (by exact h) v

/-- The bound stored for the capacity 2147483648 is negative. -/
theorem to_int_2147483648 : to_int 2147483648 = -2147483648 := by decide

/-- C1: the capacity bound is lost for a capacity that does not fit the `int`
field.  `Queue<int> q(2147483648)` stores the bound -2147483648, so `is_full()`
is false in every state, and 2147483649 calls of `try_push(0)` on the empty
queue all succeed: the queue then stores 2147483649 elements, more than the
capacity 2147483648 passed to the constructor. -/
theorem capacity_bound_lost_beyond_int :
    (Queue.init 2147483648 : Queue Int).max_queue_size_ = -2147483648 ∧
    ∃ r : Run Int,
      (Run.start (Queue.init 2147483648 : Queue Int)).exec
          (List.replicate 2147483649 (Op.try_push 0)) = some r ∧
      r.accepted.length = 2147483649 ∧
      r.queue.q_.length = 2147483649 ∧
      2147483648 < r.queue.q_.length := by
  have hm : (Queue.init 2147483648 : Queue Int).max_queue_size_ = -2147483648 :=
    to_int_2147483648
  have hle : (Queue.init 2147483648 : Queue Int).max_queue_size_ ≤ 0 := by
    rw [hm]; decide
  obtain ⟨r, hr, hacc, hlen⟩ := try_push_run_of_nonpos (0 : Int) 2147483649 _ hle
  have h0 : (Queue.init 2147483648 : Queue Int).q_.length = 0 := rfl
  rw [h0, Nat.zero_add] at hlen
  refine ⟨hm, r, hr, hacc, hlen, ?_⟩
  rw [hlen]; decide

/-- C5: backpressure is lost for a capacity that does not fit the `int` field.
On `Queue<int> q(2147483648)`, 2147483648 blocking pushes into the empty queue
are all enabled, no pop has occurred, and the next push is enabled as well
(`try_push` returns `true`): more than `c` pushes complete before any pop. -/
theorem backpressure_lost_beyond_int :
    ∃ r : Run Int,
      (Run.start (Queue.init 2147483648 : Queue Int)).exec
          (List.replicate 2147483648 (Op.push 0)) = some r ∧
      r.queue.q_.length = 2147483648 ∧
      r.returned = [] ∧
      (r.queue.push 0).isSome = true ∧
      (r.queue.try_push 0).1 = true := by
  have hle : (Queue.init 2147483648 : Queue Int).max_queue_size_ ≤ 0 := by
    show to_int 2147483648 ≤ 0
    rw [to_int_2147483648]; decide
  obtain ⟨r, hr, hlen, hret, hp, ht⟩ := push_run_of_nonpos (0 : Int) 2147483648 _ hle
  have h0 : (Queue.init 2147483648 : Queue Int).q_.length = 0 := rfl
  rw [h0, Nat.zero_add] at hlen
  exact ⟨r, hr, hlen, hret, hp, ht⟩

end DDqueue2

namespace DDqueue2

end DDqueue2

namespace DDqueue2

end DDqueue2

namespace DDthreadpool

variable {τ : Type}

/-- The spawning loop, entered with counter `i` and `fuel` iterations to go,
appends `fuel` joinable threads when the final counter value fits an `int`. -/
theorem start_loop_eq (n : Nat) (hn : n ≤ INT_MAX) :
    ∀ (fuel i : Nat) (ts : List thread), i + fuel = n →
      start_loop n fuel i ts = some (ts ++ List.replicate fuel { joinable := true }) := by
  intro fuel
  induction fuel with
  | zero =>
    intro i ts h
    have : ¬ i < n := by omega
    simp [start_loop, this]
  | succ fuel ih =>
    intro i ts h
    have h1 : i < n := by omega
    have h2 : i < INT_MAX := by omega
    simp only [start_loop, h1, h2, if_true]
    rw [ih (i + 1) _ (by omega)]
    simp [List.replicate_succ, List.append_assoc]

/-- On a running pool `start` returns at once and changes nothing. -/
theorem start_of_running (p : thread_pool τ) (m : Nat) (h : p.running_ = true) :
    p.start m = some p := by
  simp [thread_pool.start, h]

/-- On a pool that is not running, `start(n)` sets `running_` and appends `n`
joinable threads. -/
theorem start_of_not_running (p : thread_pool τ) (n : Nat) (hn : n ≤ INT_MAX)
    (h : p.running_ = false) :
    p.start n = some { p with
      running_ := true
      threads_ := p.threads_ ++ List.replicate n { joinable := true } } := by
  simp [thread_pool.start, h, start_loop_eq n hn n 0 p.threads_ (by omega)]

/-- Whatever `start` does, it leaves the task queue and the bound alone. -/
theorem start_frame (p p1 : thread_pool τ) (n : Nat) (h : p.start n = some p1) :
    p1.q_ = p.q_ ∧ p1.max_queue_size_ = p.max_queue_size_ := by
  unfold thread_pool.start at h
  cases hr : p.running_
  · simp only [hr, Bool.false_eq_true, if_false] at h
    cases hl : start_loop n n 0 p.threads_ with
    | none => simp [hl] at h
    | some ts =>
      simp only [hl, Option.some.injEq] at h
      subst h
      exact ⟨rfl, rfl⟩
  · simp only [hr, if_true, Option.some.injEq] at h
    subst h
    exact ⟨rfl, rfl⟩

/-- On a pool that is not running, `stop` returns at once and changes nothing. -/
theorem stop_of_not_running (p : thread_pool τ) (h : p.running_ = false) : p.stop = p := by
  simp [thread_pool.stop, h]

/-- After `stop` the pool is not running. -/
theorem stop_running (p : thread_pool τ) : p.stop.running_ = false := by
  unfold thread_pool.stop
  cases hr : p.running_ <;> simp [hr]

/-- On a pool that is not running, `submit` leaves through `throw;` and changes
nothing. -/
theorem submit_of_not_running (p : thread_pool τ) (f : τ) (h : p.running_ = false) :
    p.submit f = (Exit.rethrow, p) := by
  simp [thread_pool.submit, h]

/-- On a pool that is not running, a worker pass leaves the loop and changes
nothing. -/
theorem worker_of_not_running (p : thread_pool τ) (h : p.running_ = false) :
    p.worker = (Pass.finished, p) := by
  simp [thread_pool.worker, h]

/-- On a pool that is not running, every call other than `start` leaves the
pool and its history as they are. -/
theorem History.step_of_not_running (h : History τ) (c : Call τ)
    (hr : h.pool.running_ = false) (hc : c.is_start = false) : h.step c = some h := by
  cases c with
  | start n => simp [Call.is_start] at hc
  | stop => simp [History.step, stop_of_not_running _ hr]
  | submit f => simp [History.step, submit_of_not_running _ f hr]
  | worker => simp [History.step, worker_of_not_running _ hr]

/-- On a pool that is not running, every sequence of calls without `start`
leaves the pool and its history as they are. -/
theorem History.exec_of_not_running (calls : List (Call τ)) (h : History τ)
    (hr : h.pool.running_ = false) (hc : ∀ c ∈ calls, c.is_start = false) :
    h.exec calls = some h := by
  induction calls with
  | nil => rfl
  | cons c cs ih =>
    have h1 := History.step_of_not_running h c hr (hc c (List.mem_cons_self _ _))
    simp only [History.exec, h1]
    exact ih fun d hd => hc d (List.mem_cons_of_mem _ hd)

end DDthreadpool

namespace DDthreadpool

variable {τ : Type}

/-- Every call leaves the bound alone, and either leaves the task queue and the
history alone, or is a `submit` on a running pool that is not full and appends
the task, or is a worker pass on a running pool that takes the front task. -/
theorem History.call_cases (h h1 : History τ) (c : Call τ) (hs : h.step c = some h1) :
    h1.pool.max_queue_size_ = h.pool.max_queue_size_ ∧
    ((h1.pool.q_ = h.pool.q_ ∧ h1.accepted = h.accepted ∧ h1.executed = h.executed) ∨
     (∃ f, h.pool.running_ = true ∧ h.pool.is_full = false ∧
        h1.pool.q_ = h.pool.q_ ++ [f] ∧
        h1.accepted = h.accepted ++ [f] ∧ h1.executed = h.executed) ∨
     (∃ t, h.pool.running_ = true ∧ h.pool.q_ = t :: h1.pool.q_ ∧
        h1.accepted = h.accepted ∧ h1.executed = h.executed ++ [t])) := by
  cases c with
  | start n =>
    simp only [History.step] at hs
    cases hp : h.pool.start n with
    | none => simp [hp] at hs
    | some p =>
      simp only [hp, Option.some.injEq] at hs
      subst hs
      have := start_frame h.pool p n hp
      exact ⟨this.2, Or.inl ⟨this.1, rfl, rfl⟩⟩
  | stop =>
    simp only [History.step, Option.some.injEq] at hs
    subst hs
    refine ⟨?_, Or.inl ⟨?_, rfl, rfl⟩⟩ <;>
      (unfold thread_pool.stop; cases hr : h.pool.running_ <;> simp)
  | submit f =>
    simp only [History.step, thread_pool.submit] at hs
    cases hr : h.pool.running_
    · simp [hr] at hs
      subst hs
      exact ⟨rfl, Or.inl ⟨rfl, rfl, rfl⟩⟩
    · cases hf : h.pool.is_full
      · simp [hr, hf] at hs
        subst hs
        exact ⟨rfl, Or.inr (Or.inl ⟨f, rfl, rfl, rfl, rfl, rfl⟩)⟩
      · simp [hr, hf] at hs
        subst hs
        exact ⟨rfl, Or.inl ⟨rfl, rfl, rfl⟩⟩
  | worker =>
    simp only [History.step, thread_pool.worker] at hs
    cases hr : h.pool.running_
    · simp [hr] at hs
      subst hs
      exact ⟨rfl, Or.inl ⟨rfl, rfl, rfl⟩⟩
    · cases hq : h.pool.q_ with
      | nil =>
        simp [hr, hq] at hs
        subst hs
        exact ⟨rfl, Or.inl ⟨hq, rfl, rfl⟩⟩
      | cons t rest =>
        simp [hr, hq] at hs
        subst hs
        exact ⟨rfl, Or.inr (Or.inr ⟨t, rfl, rfl, rfl, rfl⟩)⟩

/-- A property kept by every call is kept by every sequence of calls. -/
theorem History.exec_keeps (P : History τ → Prop)
    (hstep : ∀ (h h1 : History τ) (c : Call τ), P h → h.step c = some h1 → P h1) :
    ∀ (calls : List (Call τ)) (h h1 : History τ), P h → h.exec calls = some h1 → P h1 := by
  intro calls
  induction calls with
  | nil =>
    intro h h1 hP he
    simp only [History.exec, Option.some.injEq] at he
    exact he ▸ hP
  | cons c cs ih =>
    intro h h1 hP he
    simp only [History.exec] at he
    cases hs : h.step c with
    | none => simp [hs] at he
    | some h2 =>
      simp only [hs] at he
      exact ih h2 h1 (hstep h h2 c hP hs) he

/-- Capacity bound of the pool's task queue: from a pool constructed with
`max_queue_size_ = c > 0`, every sequence of `start`, `stop`, `submit` calls
and worker passes leaves at most `c` queued tasks. -/
theorem History.queue_length_le (c : Nat) (h0 : 0 < c) (calls : List (Call τ))
    (h : History τ)
    (he : (History.start (thread_pool.init c : thread_pool τ)).exec calls = some h) :
    h.pool.q_.length ≤ c := by
  have key := History.exec_keeps
    (fun s : History τ => s.pool.max_queue_size_ = c ∧ s.pool.q_.length ≤ c)
    ?_ calls (History.start (thread_pool.init c)) h
    (by simp [History.start, thread_pool.init]) he
  · exact key.2
  · intro s s1 d hP hs
    obtain ⟨hm, hcase⟩ := History.call_cases s s1 d hs
    refine ⟨hm.trans hP.1, ?_⟩
    rcases hcase with hc1 | ⟨f, -, hf, h1, -, -⟩ | ⟨t, -, h1, -, -⟩
    · rw [hc1.1]; exact hP.2
    · have hlt : s.pool.q_.length < c := by
        unfold thread_pool.is_full at hf
        rw [hP.1] at hf
        simp only [gt_iff_lt, h0, decide_True, Bool.true_and, decide_eq_false_iff_not,
          ge_iff_le, not_le] at hf
        exact hf
      rw [h1, List.length_append, List.length_singleton]
      omega
    · have := hP.2
      rw [h1, List.length_cons] at this
      omega

end DDthreadpool

namespace DDthreadpool

variable {τ : Type}

/-- C7: a rejected submission is not returned as a result value.  The pool
built with capacity 3, started with 3 workers and stopped is not running, and
`submit(7)` on it does not leave by a normal return, so no result value reaches
the caller: it runs the bare statement `throw;`, with no exception in flight
when `submit` is called outside a handler. -/
theorem submit_after_stop_returns_nothing :
    (History.start (thread_pool.init 3 : thread_pool Nat)).exec [.start 3, .stop]
      = some (History.start
          { threads_ := [⟨false⟩, ⟨false⟩, ⟨false⟩], q_ := [], max_queue_size_ := 3, running_ := false }) ∧
    ¬ (({ threads_ := [⟨false⟩, ⟨false⟩, ⟨false⟩], q_ := [], max_queue_size_ := 3, running_ := false } : thread_pool Nat).submit 7).1 = Exit.returned ∧
    (({ threads_ := [⟨false⟩, ⟨false⟩, ⟨false⟩], q_ := [], max_queue_size_ := 3, running_ := false } : thread_pool Nat).submit 7).1 = Exit.rethrow := by
  decide

/-- C8: `stop` is idempotent.  For every pool state, stopping twice gives the
same state as stopping once; and on a pool that is not running `stop` returns
the state unchanged: running flag, task queue, bound and worker collection,
including the joinable status of every worker, so nothing is joined. -/
theorem stop_idempotent (p : thread_pool τ) :
    p.stop.stop = p.stop ∧ (p.running_ = false → p.stop = p) :=
  ⟨stop_of_not_running p.stop (stop_running p), stop_of_not_running p⟩

/-- Instance of `stop_idempotent`: a stopped pool with two joined workers and
the task 5 queued is left as it is by `stop`. -/
theorem stop_idempotent_witness :
    ({ threads_ := [⟨false⟩, ⟨false⟩], q_ := [5], max_queue_size_ := 3, running_ := false } : thread_pool Nat).stop
      = { threads_ := [⟨false⟩, ⟨false⟩], q_ := [5], max_queue_size_ := 3, running_ := false } :=
  (stop_idempotent
    ({ threads_ := [⟨false⟩, ⟨false⟩], q_ := [5], max_queue_size_ := 3, running_ := false } :
      thread_pool Nat)).2 rfl

/-- C9: `start` is a no-op on a running pool.  After `start(n)` on a freshly
constructed pool (with `n` in the range of the `int` loop counter) the pool is
running with exactly `n` workers, all joinable, an empty task queue and the
bound it was built with; for every `m` a further `start(m)` returns that same
state.  More generally `start(m)` returns every running pool unchanged. -/
theorem start_noop_when_running (c n m : Nat) (hn : n ≤ INT_MAX) :
    (∃ p : thread_pool τ,
      (thread_pool.init c : thread_pool τ).start n = some p ∧
      p.running_ = true ∧ p.threads_.length = n ∧
      (∀ t ∈ p.threads_, t.joinable = true) ∧
      p.q_ = [] ∧ p.max_queue_size_ = c ∧
      p.start m = some p) ∧
    (∀ p1 : thread_pool τ, p1.running_ = true → p1.start m = some p1) := by
  refine ⟨⟨_, start_of_not_running (thread_pool.init c) n hn rfl, rfl, ?_, ?_, rfl, rfl,
    start_of_running _ m rfl⟩, fun p1 h1 => start_of_running p1 m h1⟩
  · simp [thread_pool.init]
  · intro t ht
    simp only [thread_pool.init, List.nil_append] at ht
    rw [List.eq_of_mem_replicate ht]

/-- Instance of `start_noop_when_running`, as in the test of `main`: a pool built
with capacity 3 and started with 3 workers; a further `start(5)` changes
nothing. -/
theorem start_noop_when_running_witness :
    (3 ≤ INT_MAX) ∧
    (∃ p : thread_pool Nat,
      (thread_pool.init 3 : thread_pool Nat).start 3 = some p ∧
      p.running_ = true ∧ p.threads_.length = 3 ∧
      (∀ t ∈ p.threads_, t.joinable = true) ∧
      p.q_ = [] ∧ p.max_queue_size_ = 3 ∧
      p.start 5 = some p) :=
  ⟨by decide, (start_noop_when_running 3 3 5 (by decide)).1⟩

/-- C10, the claim as stated fails: the pool built with capacity 3, started with
3 workers and stopped is not running; a later `start(2)` makes it running again
and extends the worker collection from 3 to 5 entries. -/
theorem stopped_pool_restarts :
    (History.start (thread_pool.init 3 : thread_pool Nat)).exec [.start 3, .stop]
      = some (History.start
          { threads_ := [⟨false⟩, ⟨false⟩, ⟨false⟩], q_ := [], max_queue_size_ := 3, running_ := false }) ∧
    (History.start (thread_pool.init 3 : thread_pool Nat)).exec [.start 3, .stop, .start 2]
      = some (History.start
          { threads_ := [⟨false⟩, ⟨false⟩, ⟨false⟩, ⟨true⟩, ⟨true⟩], q_ := [], max_queue_size_ := 3, running_ := true }) := by
  decide

/-- C10, amended: after `stop()` the pool is not running, and every sequence of
`stop` calls, `submit` calls and worker passes leaves it exactly as `stop()`
left it: not running, with the same worker collection.  Only `start` leaves
that state: `start(n)` on the stopped pool sets the running flag again and
appends `n` workers. -/
theorem stopped_until_started_again (p0 : thread_pool τ) (calls : List (Call τ))
    (hc : ∀ c ∈ calls, c.is_start = false) :
    p0.stop.running_ = false ∧
    (∃ h : History τ,
      (History.start p0.stop).exec calls = some h ∧
      h.pool.running_ = false ∧ h.pool.threads_ = p0.stop.threads_ ∧ h.pool = p0.stop) ∧
    (∀ n : Nat, n ≤ INT_MAX →
      p0.stop.start n = some { p0.stop with
        running_ := true
        threads_ := p0.stop.threads_ ++ List.replicate n { joinable := true } }) :=
  ⟨stop_running p0,
   ⟨History.start p0.stop, History.exec_of_not_running calls _ (stop_running p0) hc,
    stop_running p0, rfl, rfl⟩,
   fun n hn => start_of_not_running p0.stop n hn (stop_running p0)⟩

/-- Instance of `stopped_until_started_again`: a running pool with two workers
and the task 5 queued is stopped; `stop`, `submit(7)`, a worker pass and another
`stop` then leave it not running. -/
theorem stopped_until_started_again_witness :
    (∀ c ∈ ([.stop, .submit 7, .worker, .stop] : List (Call Nat)), c.is_start = false) ∧
    (∃ h : History Nat,
      (History.start
        ({ threads_ := [⟨true⟩, ⟨true⟩], q_ := [5], max_queue_size_ := 3, running_ := true } :
          thread_pool Nat).stop).exec
        [.stop, .submit 7, .worker, .stop] = some h ∧
      h.pool.running_ = false ∧
      h.pool.threads_ = ({ threads_ := [⟨true⟩, ⟨true⟩], q_ := [5], max_queue_size_ := 3, running_ := true } : thread_pool Nat).stop.threads_ ∧
      h.pool = ({ threads_ := [⟨true⟩, ⟨true⟩], q_ := [5], max_queue_size_ := 3, running_ := true } : thread_pool Nat).stop) :=
  ⟨by decide,
   (stopped_until_started_again
      ({ threads_ := [⟨true⟩, ⟨true⟩], q_ := [5], max_queue_size_ := 3, running_ := true } : thread_pool Nat)
      [.stop, .submit 7, .worker, .stop] (by decide)).2.1⟩

end DDthreadpool

namespace DDthreadpool

variable {τ : Type}

/-- Bookkeeping of the task queue from any initial pool: what was queued
initially, followed by what `submit` stored, is what the workers took followed
by what is still queued. -/
theorem History.exec_accounting (p : thread_pool τ) (calls : List (Call τ)) (h : History τ)
    (he : (History.start p).exec calls = some h) :
    p.q_ ++ h.accepted = h.executed ++ h.pool.q_ := by
  refine History.exec_keeps (fun s => p.q_ ++ s.accepted = s.executed ++ s.pool.q_)
    ?_ calls (History.start p) h (by simp [History.start]) he
  intro s s1 c hP hs
  obtain ⟨-, hc | ⟨f, -, -, h1, h2, h3⟩ | ⟨t, -, h1, h2, h3⟩⟩ := History.call_cases s s1 c hs
  · simp only [hc.1, hc.2.1, hc.2.2, hP]
  · simp only [h1, h2, h3, ← List.append_assoc, hP]
  · simp only [h2, h3, hP, h1, List.append_assoc, List.singleton_append]

/-- Running tasks that each add one to a counter adds the number of tasks. -/
theorem run_tasks_increments (act : τ → Nat → Nat) :
    ∀ (l : List τ) (s : Nat), (∀ t ∈ l, ∀ k, act t k = k + 1) →
      run_tasks (l.map act) s = s + l.length := by
  intro l
  induction l with
  | nil => intro s _; rfl
  | cons t l ih =>
    intro s hl
    have ht : act t s = s + 1 := hl t (List.mem_cons_self _ _) s
    have := ih (s + 1) fun u hu => hl u (List.mem_cons_of_mem _ hu)
    simp only [run_tasks, List.map_cons, List.foldl_cons, ht] at this ⊢
    rw [this, List.length_cons, Nat.add_assoc, Nat.add_comm 1]

/-- C11: no accepted task is lost or duplicated.  In every state reached from a
freshly constructed pool by `start(n)` followed by any calls (`submit`, worker
passes, and also `stop` and further `start` calls), the tasks accepted by
`submit`, in order, are the tasks taken by the workers, in order, followed by
the tasks still queued.  Throughput: for every capacity and number of workers,
when 100 tasks have been accepted, each of them adding one to a counter, and
the queue is empty, then in whatever order the tasks taken by the workers are
run the counter goes from 0 to 100. -/
theorem no_task_lost_or_duplicated (τ : Type) :
    (∀ (c n : Nat) (calls : List (Call τ)) (h : History τ),
        (History.start (thread_pool.init c : thread_pool τ)).exec (Call.start n :: calls)
          = some h →
        h.accepted = h.executed ++ h.pool.q_) ∧
    (∀ (c n : Nat) (act : τ → Nat → Nat) (calls : List (Call τ)) (h : History τ),
        (History.start (thread_pool.init c : thread_pool τ)).exec (Call.start n :: calls)
          = some h →
        h.accepted.length = 100 →
        (∀ t ∈ h.accepted, ∀ k, act t k = k + 1) →
        h.pool.q_ = [] →
        h.executed = h.accepted ∧
        ∀ order : List τ, order.Perm h.executed → run_tasks (order.map act) 0 = 100) := by
  have key : ∀ (c n : Nat) (calls : List (Call τ)) (h : History τ),
      (History.start (thread_pool.init c : thread_pool τ)).exec (Call.start n :: calls)
        = some h → h.accepted = h.executed ++ h.pool.q_ := by
    intro c n calls h he
    have := History.exec_accounting (thread_pool.init c) _ h he
    simpa [thread_pool.init] using this
  refine ⟨key, ?_⟩
  intro c n act calls h he hlen hact hq
  have hex : h.executed = h.accepted := by
    have := key c n calls h he
    rw [hq, List.append_nil] at this
    exact this.symm
  refine ⟨hex, ?_⟩
  intro order hperm
  rw [run_tasks_increments act order 0 ?_, hperm.length_eq, hex, hlen]
  intro t ht k
  exact hact t (hex ▸ hperm.subset ht) k

/-- Instance of `no_task_lost_or_duplicated`: capacity 10, 3 workers, tasks
numbered 0..99.  The producer stores tasks 0..9, which fills the queue; then
90 times a worker takes a task and the producer stores the next one; then the
workers take the last 10.  All 100 tasks were accepted, the queue is empty, and
running the tasks taken, each adding one, brings the counter from 0 to 100. -/
theorem no_task_lost_or_duplicated_witness :
    (History.start (thread_pool.init 10 : thread_pool Nat)).exec
        (Call.start 3 :: main_calls)
      = some { pool := { threads_ := [⟨true⟩, ⟨true⟩, ⟨true⟩], q_ := [], max_queue_size_ := 10, running_ := true }, accepted := List.range 100, executed := List.range 100 } ∧
    run_tasks ((List.range 100).map fun _ k => k + 1) 0 = 100 :=
  ⟨by decide!,
   ((no_task_lost_or_duplicated Nat).2 10 3 (fun _ k => k + 1)
      main_calls
      { pool := { threads_ := [⟨true⟩, ⟨true⟩, ⟨true⟩], q_ := [], max_queue_size_ := 10, running_ := true }, accepted := List.range 100, executed := List.range 100 }
      (by decide!) (by simp) (fun _ _ _ => rfl) rfl).2 (List.range 100) (List.Perm.refl _)⟩

end DDthreadpool

namespace DDthreadpool

variable {τ : Type}

/-- C12: shutdown releases waiters.  In every pool state that is not running,
whatever the task queue holds, the wait predicate of `submit` and the wait
predicate of the worker both hold, so neither call stays suspended; the worker
pass leaves its loop and `submit` takes the rejection branch (`throw;`), and
both leave every field of the pool, the task queue included, as it was.  Every
state left by `stop()` is such a state. -/
theorem shutdown_releases_waiters (p : thread_pool τ) (f : τ) (hr : p.running_ = false) :
    p.submit_wait = true ∧ p.worker_wait = true ∧
    (p.submit f).1 ≠ Exit.waiting ∧ p.worker.1 ≠ Pass.waiting ∧
    p.worker = (Pass.finished, p) ∧ p.submit f = (Exit.rethrow, p) ∧
    p.worker_asserting = DD.Guarded.left_early ∧
    p.submit_asserting f = DD.Guarded.left_early ∧
    (∀ p0 : thread_pool τ, p0.stop.running_ = false) := by
  refine ⟨by simp [thread_pool.submit_wait, hr], by simp [thread_pool.worker_wait, hr],
    ?_, ?_, worker_of_not_running p hr, submit_of_not_running p f hr, ?_, ?_, stop_running⟩
  · rw [submit_of_not_running p f hr]; simp
  · rw [worker_of_not_running p hr]; simp
  · simp [thread_pool.worker_asserting, thread_pool.worker_wait, hr]
  · simp [thread_pool.submit_asserting, thread_pool.submit_wait, hr]

/-- Instance of `shutdown_releases_waiters`: a stopped pool of capacity 1 whose
queue is full; both wait predicates hold, the worker pass leaves its loop and
`submit(7)` is rejected, the queue still holding the task 4. -/
theorem shutdown_releases_waiters_witness :
    ({ threads_ := [⟨false⟩], q_ := [4], max_queue_size_ := 1, running_ := false } : thread_pool Nat).is_full = true ∧
    ({ threads_ := [⟨false⟩], q_ := [4], max_queue_size_ := 1, running_ := false } : thread_pool Nat).submit_wait = true ∧
    ({ threads_ := [⟨false⟩], q_ := [4], max_queue_size_ := 1, running_ := false } : thread_pool Nat).worker_wait = true :=
  ⟨by decide,
   (shutdown_releases_waiters ({ threads_ := [⟨false⟩], q_ := [4], max_queue_size_ := 1, running_ := false } : thread_pool Nat) 7 rfl).1,
   (shutdown_releases_waiters ({ threads_ := [⟨false⟩], q_ := [4], max_queue_size_ := 1, running_ := false } : thread_pool Nat) 7 rfl).2.1⟩

/-- C13, the claim as stated fails: the task 7 is accepted by a running pool and
is still queued when `stop()` takes effect; after a later `start(1)` a worker
pass takes the task 7 out of the queue and runs it. -/
theorem queued_task_runs_after_restart :
    (History.start (thread_pool.init 3 : thread_pool Nat)).exec
        [.start 1, .submit 7, .stop]
      = some { pool := { threads_ := [⟨false⟩], q_ := [7], max_queue_size_ := 3, running_ := false }, accepted := [7], executed := [] } ∧
    (History.start (thread_pool.init 3 : thread_pool Nat)).exec
        [.start 1, .submit 7, .stop, .start 1, .worker]
      = some { pool := { threads_ := [⟨false⟩, ⟨true⟩], q_ := [], max_queue_size_ := 3, running_ := true }, accepted := [7], executed := [7] } := by
  decide

/-- C13, amended: drop-on-shutdown policy of the worker loop.  For every pool
state that is not running, whatever its task queue holds, a worker pass leaves
the loop without taking or running a task and leaves the pool unchanged.
Consequently, from the state left by `stop()`, every sequence of `stop` calls,
`submit` calls and worker passes runs no task and leaves the queue as it was:
the tasks still queued are not run as long as `start` is not called again. -/
theorem worker_drops_queue_after_stop (p : thread_pool τ) (hr : p.running_ = false) :
    p.worker = (Pass.finished, p) ∧
    p.worker_asserting = DD.Guarded.left_early ∧
    (∀ (p0 : thread_pool τ) (calls : List (Call τ)), (∀ c ∈ calls, c.is_start = false) →
      ∃ h : History τ, (History.start p0.stop).exec calls = some h ∧
        h.executed = [] ∧ h.pool.q_ = p0.q_ ∧ h.pool.running_ = false) := by
  refine ⟨worker_of_not_running p hr, ?_, ?_⟩
  · simp [thread_pool.worker_asserting, thread_pool.worker_wait, hr]
  · intro p0 calls hc
    refine ⟨History.start p0.stop,
      History.exec_of_not_running calls _ (stop_running p0) hc, rfl, ?_, stop_running p0⟩
    show p0.stop.q_ = p0.q_
    unfold thread_pool.stop
    cases h : p0.running_ <;> simp

/-- Instance of `worker_drops_queue_after_stop`: on a stopped pool that still
holds the tasks 4 and 5, a worker pass leaves its loop and the pool is
unchanged. -/
theorem worker_drops_queue_after_stop_witness :
    ({ threads_ := [⟨false⟩], q_ := [4, 5], max_queue_size_ := 3, running_ := false } : thread_pool Nat).worker
      = (Pass.finished, { threads_ := [⟨false⟩], q_ := [4, 5], max_queue_size_ := 3, running_ := false }) :=
  (worker_drops_queue_after_stop ({ threads_ := [⟨false⟩], q_ := [4, 5], max_queue_size_ := 3, running_ := false } : thread_pool Nat) rfl).1

/-- C17: `submit` takes the rejection branch exactly when the pool is not
running.  A freshly constructed pool, which was never started, rejects every
task and stays as constructed; a running pool whose queue is not full appends
the task at the back of the queue and returns normally. -/
theorem submit_rejected_iff_not_running (p : thread_pool τ) (f : τ) (c : Nat) :
    ((p.submit f).1 = Exit.rethrow ↔ p.running_ = false) ∧
    (thread_pool.init c : thread_pool τ).submit f = (Exit.rethrow, thread_pool.init c) ∧
    (p.running_ = true → p.is_full = false →
      p.submit f = (Exit.returned, { p with q_ := p.q_ ++ [f] })) := by
  refine ⟨?_, submit_of_not_running _ f rfl, ?_⟩
  · unfold thread_pool.submit
    cases hr : p.running_ <;> cases hf : p.is_full <;> simp
  · intro hr hf
    simp [thread_pool.submit, hr, hf]

/-- Instance of `submit_rejected_iff_not_running`: a running pool of capacity 3
holding the task 4 accepts the task 7 behind it. -/
theorem submit_rejected_iff_not_running_witness :
    ({ threads_ := [⟨true⟩], q_ := [4], max_queue_size_ := 3, running_ := true } : thread_pool Nat).submit 7
      = (Exit.returned, { threads_ := [⟨true⟩], q_ := [4, 7], max_queue_size_ := 3, running_ := true }) :=
  (submit_rejected_iff_not_running ({ threads_ := [⟨true⟩], q_ := [4], max_queue_size_ := 3, running_ := true } : thread_pool Nat) 7 0).2.2 rfl (by decide)

end DDthreadpool

namespace DDqueue2

variable {α : Type}

/-- C14: the assertions after the predicate-guarded waits never fail.  In
`Queue::push`, and in `thread_pool::submit` once the running check has passed,
the wait predicate implies that the queue is not full; in `Queue::pop` of the
bounded and of the unbounded queue, and in `thread_pool::worker` once the
running check has passed, the wait predicate implies that the queue is not
empty.  Hence none of the five members ever ends in a failed `assert`, and
none applies `front()` to an empty queue. -/
theorem asserts_never_fail (q : Queue α) (u : DDqueue.Queue α)
    (p : DDthreadpool.thread_pool α) (v : α) :
    ((q.push_wait = true → q.is_full = false) ∧
      (p.submit_wait = true → p.running_ = true → p.is_full = false) ∧
      (q.pop_wait = true → q.q_ ≠ []) ∧
      (u.pop_wait = true → u.q_ ≠ []) ∧
      (p.worker_wait = true → p.running_ = true → p.q_ ≠ [])) ∧
    (q.push_asserting v ≠ DD.Guarded.assert_failed ∧
      p.submit_asserting v ≠ DD.Guarded.assert_failed ∧
      q.pop_asserting ≠ DD.Guarded.assert_failed ∧
      q.pop_asserting ≠ DD.Guarded.front_of_empty ∧
      u.pop_asserting ≠ DD.Guarded.assert_failed ∧
      u.pop_asserting ≠ DD.Guarded.front_of_empty ∧
      p.worker_asserting ≠ DD.Guarded.assert_failed ∧
      p.worker_asserting ≠ DD.Guarded.front_of_empty) := by
  refine ⟨⟨?_, ?_, ?_, ?_, ?_⟩, ?_, ?_, ?_, ?_, ?_, ?_, ?_, ?_⟩
  · intro h; simpa [Queue.push_wait] using h
  · intro h hr; simpa [DDthreadpool.thread_pool.submit_wait, hr] using h
  · intro h; simpa [Queue.pop_wait] using h
  · intro h; simpa [DDqueue.Queue.pop_wait] using h
  · intro h hr; simpa [DDthreadpool.thread_pool.worker_wait, hr] using h
  · unfold Queue.push_asserting Queue.push_wait
    cases q.is_full <;> simp
  · unfold DDthreadpool.thread_pool.submit_asserting DDthreadpool.thread_pool.submit_wait
    cases p.running_ <;> cases p.is_full <;> simp
  · unfold Queue.pop_asserting Queue.pop_wait
    cases q.q_ <;> simp
  · unfold Queue.pop_asserting Queue.pop_wait
    cases q.q_ <;> simp
  · unfold DDqueue.Queue.pop_asserting DDqueue.Queue.pop_wait
    cases u.q_ <;> simp
  · unfold DDqueue.Queue.pop_asserting DDqueue.Queue.pop_wait
    cases u.q_ <;> simp
  · unfold DDthreadpool.thread_pool.worker_asserting DDthreadpool.thread_pool.worker_wait
    cases p.running_ <;> cases p.q_ <;> simp
  · unfold DDthreadpool.thread_pool.worker_asserting DDthreadpool.thread_pool.worker_wait
    cases p.running_ <;> cases p.q_ <;> simp

/-- Instance of `asserts_never_fail`: a bounded queue of capacity 2 holding 1,
an unbounded queue holding 1, and a running pool of capacity 2 holding the
task 1 pass every wait, and then are neither full nor empty. -/
theorem asserts_never_fail_witness :
    ({ q_ := [1], max_queue_size_ := 2 } : Queue Nat).is_full = false ∧
    ({ threads_ := [⟨true⟩], q_ := [1], max_queue_size_ := 2, running_ := true } : DDthreadpool.thread_pool Nat).is_full = false ∧
    ({ q_ := [1], max_queue_size_ := 2 } : Queue Nat).q_ ≠ [] ∧
    ({ q_ := [1] } : DDqueue.Queue Nat).q_ ≠ [] ∧
    ({ threads_ := [⟨true⟩], q_ := [1], max_queue_size_ := 2, running_ := true } : DDthreadpool.thread_pool Nat).q_ ≠ [] := by
  have h := (asserts_never_fail ({ q_ := [1], max_queue_size_ := 2 } : Queue Nat)
    ({ q_ := [1] } : DDqueue.Queue Nat)
    ({ threads_ := [⟨true⟩], q_ := [1], max_queue_size_ := 2, running_ := true } : DDthreadpool.thread_pool Nat) 0).1
  exact ⟨h.1 (by decide), h.2.1 (by decide) rfl, h.2.2.1 (by decide), h.2.2.2.1 (by decide),
    h.2.2.2.2 (by decide) rfl⟩

/-- C16: fullness is not decided against the constructor's capacity once the
capacity leaves the range of the `int` field.  Capacity 2147483648 is stored as
-2147483648 and `is_full()` is false whatever is stored, also with 2147483648
stored elements; capacity 4294967296 is stored as 0, the unbounded setting,
although it is not 0; capacity 4294967297 is stored as 1 and `is_full()` is
true with one stored element, far below the capacity. -/
theorem is_full_ignores_capacity_beyond_int :
    (∀ xs : List Int,
      ({ (Queue.init 2147483648 : Queue Int) with q_ := xs }).is_full = false) ∧
    ((List.replicate 2147483648 (0 : Int)).length ≥ 2147483648 ∧
      ({ (Queue.init 2147483648 : Queue Int) with
          q_ := List.replicate 2147483648 (0 : Int) }).is_full = false) ∧
    ((Queue.init 4294967296 : Queue Int).max_queue_size_ = 0 ∧
      ∀ xs : List Int,
        ({ (Queue.init 4294967296 : Queue Int) with q_ := xs }).is_full = false) ∧
    ((Queue.init 4294967297 : Queue Int).max_queue_size_ = 1 ∧
      ({ (Queue.init 4294967297 : Queue Int) with q_ := [0] }).is_full = true) := by
  have h31 : (Queue.init 2147483648 : Queue Int).max_queue_size_ ≤ 0 := by
    show to_int 2147483648 ≤ 0
    rw [to_int_2147483648]; decide
  have h32 : (Queue.init 4294967296 : Queue Int).max_queue_size_ = 0 := by
    show to_int 4294967296 = 0
    decide
  refine ⟨fun xs => is_full_of_nonpos _ h31, ⟨?_, is_full_of_nonpos _ h31⟩,
    ⟨h32, fun xs => is_full_of_nonpos _ (le_of_eq h32)⟩, ?_, ?_⟩
  · rw [List.length_replicate]
  · show to_int 4294967297 = 1
    decide
  · decide

end DDqueue2

namespace DDvector

variable {α : Type}

/-- Writing the slot that follows `pre` replaces exactly that slot. -/
theorem set_at_length {β : Type} (pre : List β) (y z : β) (post : List β) :
    (pre ++ z :: post).set pre.length y = pre ++ y :: post := by
  induction pre with
  | nil => rfl
  | cons a pre ih => simp [ih]

/-- Reading the slot that follows `pre`. -/
theorem get_at_length {β : Type} (pre : List β) (z : β) (post : List β) :
    (pre ++ z :: post)[pre.length]? = some z := by
  induction pre with
  | nil => simp
  | cons a pre ih => simpa using ih

/-- A run of constructed objects reads back as the objects. -/
theorem objects_map_some (xs : List α) : objects (xs.map some) = some xs := by
  induction xs with
  | nil => rfl
  | cons x xs ih => simp [objects, ih]

/-- A run of slots that reads back as `xs` consists of the objects `xs`. -/
theorem eq_map_some_of_objects : ∀ (p : List (Option α)) (xs : List α),
    objects p = some xs → p = xs.map some := by
  intro p
  induction p with
  | nil =>
    intro xs h
    simp only [objects, Option.some.injEq] at h
    subst h; rfl
  | cons a p ih =>
    intro xs h
    cases a with
    | none => simp [objects] at h
    | some x =>
      simp only [objects] at h
      cases hp : objects p with
      | none => simp [hp] at h
      | some ys =>
        simp only [hp, Option.some.injEq] at h
        subst h
        simp [ih ys hp]

/-- The copy loop, entered after the objects `copied` have been moved over and
with the objects `todo` still to go, ends with all of them in the new storage
and with every old slot in its moved-from state, when their number fits the
`int` counter. -/
theorem copy_loop_eq (moved : α → α) (rest : List (Option α)) (extra : Nat) :
    ∀ (todo copied : List α), (copied ++ todo).length ≤ INT_MAX →
      copy_loop moved (copied ++ todo).length todo.length copied.length
          (copied.map (fun y => some (moved y)) ++ (todo.map some ++ rest))
          (copied.map some ++ List.replicate (todo.length + extra) none)
        = some ((copied ++ todo).map (fun y => some (moved y)) ++ rest,
            (copied ++ todo).map some ++ List.replicate extra none) := by
  intro todo
  induction todo with
  | nil =>
    intro copied _
    simp [copy_loop]
  | cons x todo ih =>
    intro copied hlen
    have hlt : copied.length < (copied ++ x :: todo).length := by simp
    have hmax : copied.length < INT_MAX := by
      have : (copied ++ x :: todo).length = copied.length + (todo.length + 1) := by simp
      omega
    have hget : (copied.map (fun y => some (moved y)) ++ ((x :: todo).map some ++ rest))[
        copied.length]? = some (some x) := by
      have := get_at_length (copied.map (fun y => some (moved y))) (some x)
        (todo.map some ++ rest)
      simpa using this
    have hold : (copied.map (fun y => some (moved y)) ++ ((x :: todo).map some ++ rest)).set
        copied.length (some (moved x))
        = (copied ++ [x]).map (fun y => some (moved y)) ++ (todo.map some ++ rest) := by
      have := set_at_length (copied.map (fun y => some (moved y))) (some (moved x)) (some x)
        (todo.map some ++ rest)
      simp only [List.length_map] at this
      simp
    have hcon : construct (copied.map some ++ List.replicate (todo.length + 1 + extra) none)
        copied.length x
        = some ((copied ++ [x]).map some ++ List.replicate (todo.length + extra) none) := by
      have hrep : List.replicate (todo.length + 1 + extra) (none : Option α)
          = none :: List.replicate (todo.length + extra) none := by
        rw [show todo.length + 1 + extra = (todo.length + extra) + 1 by omega,
          List.replicate_succ]
      have hset := set_at_length (copied.map some) (some x) none
        (List.replicate (todo.length + extra) (none : Option α))
      simp only [List.length_map] at hset
      simp only [construct, hrep, List.length_append, List.length_map, List.length_cons,
        List.length_replicate, hset]
      rw [if_pos (by omega)]
      simp
    have hih := ih (copied ++ [x]) (by simpa using hlen)
    simp only [List.length_cons, copy_loop, hlt, if_true, hget, hcon, hmax, hold]
    simpa using hih

/-- Explicit form of `emplace_back` with a value from outside the vector, on a
vector whose first slots hold the objects `xs` and whose remaining slots are
`rest`, for a size that fits the `int` counter of the copy loop. -/
theorem emplace_back_eq (moved : α → α) (xs : List α) (rest : List (Option α)) (x : α)
    (hs : xs.length ≤ INT_MAX) :
    ({ cap_ := xs.length + rest.length, size_ := xs.length, ptr_ := xs.map some ++ rest } :
        vector α).emplace_back moved (Arg.value x)
      = some
        { cap_ := if rest.length ≠ 0 then xs.length + rest.length
                  else if xs.length ≠ 0 then 2 * xs.length else 1
          size_ := xs.length + 1
          ptr_ := (xs ++ [x]).map some ++
            (if rest.length ≠ 0 then rest.tail
             else List.replicate ((if xs.length ≠ 0 then 2 * xs.length else 1) - xs.length - 1)
               none) } := by
  have hINT : INT_MAX = 2147483647 := rfl
  have hsz : (xs.length + 1) % SIZE_RANGE = xs.length + 1 := by
    apply Nat.mod_eq_of_lt
    simp only [SIZE_RANGE]; omega
  cases rest with
  | cons r rest =>
    have hne : ¬ xs.length = xs.length + (r :: rest).length := by simp
    have hcon : construct (xs.map some ++ r :: rest) xs.length x
        = some (xs.map some ++ some x :: rest) := by
      have hset := set_at_length (xs.map some) (some x) r rest
      simp only [List.length_map] at hset
      unfold construct
      rw [if_pos (by simp), hset]
    unfold vector.emplace_back
    dsimp only
    rw [if_neg hne]
    dsimp only [Arg.read]
    rw [hcon]
    dsimp only
    rw [hsz]
    simp
  | nil =>
    by_cases h0 : xs.length = 0
    · have hx : xs = [] := List.eq_nil_of_length_eq_zero h0
      subst hx
      simp [vector.emplace_back, copy_loop, alloc, construct, SIZE_RANGE, Arg.read]
    · have hcap : (xs.length * 2) % SIZE_RANGE = 2 * xs.length := by
        rw [Nat.mod_eq_of_lt (by simp only [SIZE_RANGE]; omega)]; omega
      have hcopy := copy_loop_eq moved ([] : List (Option α)) (2 * xs.length - xs.length) xs []
        hs
      simp only [List.nil_append, List.append_nil, List.length_nil, List.map_nil] at hcopy
      rw [show xs.length + (2 * xs.length - xs.length) = 2 * xs.length by omega] at hcopy
      have hrep : List.replicate (2 * xs.length - xs.length) (none : Option α)
          = none :: List.replicate (2 * xs.length - xs.length - 1) none := by
        rw [← List.replicate_succ]
        congr 1; omega
      have hcon : construct (xs.map some ++ List.replicate (2 * xs.length - xs.length) none)
          xs.length x
          = some (xs.map some ++
              some x :: List.replicate (2 * xs.length - xs.length - 1) none) := by
        have hset := set_at_length (xs.map some) (some x) none
          (List.replicate (2 * xs.length - xs.length - 1) (none : Option α))
        simp only [List.length_map] at hset
        unfold construct
        rw [hrep, if_pos (by simp), hset]
      unfold vector.emplace_back
      dsimp only
      rw [if_pos (by simp), if_pos (by simpa using h0)]
      simp only [List.length_nil, Nat.add_zero, List.append_nil]
      rw [hcap]
      unfold alloc
      rw [hcopy]
      dsimp only [Arg.read]
      rw [hcon]
      dsimp only
      rw [hsz]
      simp [h0]

/-- Explicit form of `push_back(v[k])` on a full vector holding the objects
`xs`, for a size that fits the `int` counter of the copy loop: the element
appended is the moved-from state of `v[k]`, because the old elements are moved
to the new storage before the new element is constructed from the
reference. -/
theorem push_back_own_element_eq (moved : α → α) (xs : List α) (k : Nat) (y : α)
    (hk : xs[k]? = some y) (hs : xs.length ≤ INT_MAX) :
    ({ cap_ := xs.length, size_ := xs.length, ptr_ := xs.map some } :
        vector α).push_back moved (Arg.element k)
      = some
        { cap_ := 2 * xs.length
          size_ := xs.length + 1
          ptr_ := (xs ++ [moved y]).map some ++
            List.replicate (2 * xs.length - xs.length - 1) none } := by
  have hINT : INT_MAX = 2147483647 := rfl
  have hklt : k < xs.length := (List.getElem?_eq_some.1 hk).1
  have h0 : xs.length ≠ 0 := by omega
  have hsz : (xs.length + 1) % SIZE_RANGE = xs.length + 1 := by
    apply Nat.mod_eq_of_lt
    simp only [SIZE_RANGE]; omega
  have hcap : (xs.length * 2) % SIZE_RANGE = 2 * xs.length := by
    rw [Nat.mod_eq_of_lt (by simp only [SIZE_RANGE]; omega)]; omega
  have hcopy := copy_loop_eq moved ([] : List (Option α)) (2 * xs.length - xs.length) xs [] hs
  simp only [List.nil_append, List.append_nil, List.length_nil, List.map_nil] at hcopy
  rw [show xs.length + (2 * xs.length - xs.length) = 2 * xs.length by omega] at hcopy
  have hread : (Arg.element k : Arg α).read (xs.map fun y => some (moved y))
      = some (moved y) := by
    simp [Arg.read, List.getElem?_map, hk]
  have hrep : List.replicate (2 * xs.length - xs.length) (none : Option α)
      = none :: List.replicate (2 * xs.length - xs.length - 1) none := by
    rw [← List.replicate_succ]
    congr 1; omega
  have hcon : construct (xs.map some ++ List.replicate (2 * xs.length - xs.length) none)
      xs.length (moved y)
      = some (xs.map some ++
          some (moved y) :: List.replicate (2 * xs.length - xs.length - 1) none) := by
    have hset := set_at_length (xs.map some) (some (moved y)) none
      (List.replicate (2 * xs.length - xs.length - 1) (none : Option α))
    simp only [List.length_map] at hset
    unfold construct
    rw [hrep, if_pos (by simp), hset]
  unfold vector.push_back vector.emplace_back
  dsimp only
  rw [if_pos rfl, if_pos h0, hcap]
  unfold alloc
  rw [hcopy]
  dsimp only
  rw [hread]
  dsimp only
  rw [hcon]
  dsimp only
  rw [hsz]
  simp

end DDvector

namespace DDvector

variable {α : Type}

/-- A vector whose elements read back as `xs` and whose storage has `cap_`
slots stores the objects `xs` in its first slots. -/
theorem vector.shape (v : vector α) (xs : List α) (hc : v.contents = some xs)
    (hp : v.ptr_.length = v.cap_) :
    v = { cap_ := xs.length + (v.ptr_.drop v.size_).length, size_ := xs.length,
          ptr_ := xs.map some ++ v.ptr_.drop v.size_ } := by
  unfold vector.contents at hc
  by_cases hle : v.size_ ≤ v.ptr_.length
  · rw [if_pos hle] at hc
    have htake := eq_map_some_of_objects _ _ hc
    have hlen : xs.length = v.size_ := by
      have := congrArg List.length htake
      simp only [List.length_take, List.length_map] at this
      omega
    obtain ⟨c, s, p⟩ := v
    simp only at hle htake hlen hp ⊢
    subst hlen
    have hsplit : p = xs.map some ++ p.drop xs.length := by
      rw [← htake, List.take_append_drop]
    rw [← hsplit]
    simp only [List.length_drop]
    congr 1
    omega
  · rw [if_neg hle] at hc
    exact absurd hc (by simp)

/-- Growth by doubling for an argument from outside the vector.  For every
vector whose elements are `xs`, whose storage has `cap_` slots and whose size
fits the `int` counter of the copy loop, and for every value `x` that does not
live in the vector, `emplace_back(x)` returns, and afterwards the elements are
`xs` followed by `x`, the size is one more, and the capacity is unchanged if
the size was below it, doubled if the vector was full with a capacity other
than 0, and 1 if size and capacity were 0.  In the test, the vector built from
three strings and cleared has size 0 and capacity 3, and the 26 calls of
`emplace_back` leave sizes 1..26 with capacities 3, 3, 3, 6, 6, 6, six times
12, twelve times 24, and twice 48, the elements being the 26 letters in
order. -/
theorem emplace_back_doubles (α : Type) (moved : α → α) :
    (∀ (v : vector α) (xs : List α) (x : α),
        v.contents = some xs → v.ptr_.length = v.cap_ → v.size_ ≤ INT_MAX →
        ∃ v1 : vector α,
          v.emplace_back moved (Arg.value x) = some v1 ∧
          v1.contents = some (xs ++ [x]) ∧
          v1.size = v.size + 1 ∧
          v1.capacity = (if v.size < v.capacity then v.capacity
                         else if v.capacity ≠ 0 then 2 * v.capacity else 1) ∧
          v1.ptr_.length = v1.cap_) ∧
    ((vector.of_list ["1", "2", "3"]).bind vector.clear
        = some { cap_ := 3, size_ := 0, ptr_ := [none, none, none] } ∧
      main_test.map (fun r => r.1)
        = some [(1, 3), (2, 3), (3, 3), (4, 6), (5, 6), (6, 6), (7, 12), (8, 12), (9, 12),
            (10, 12), (11, 12), (12, 12), (13, 24), (14, 24), (15, 24), (16, 24), (17, 24),
            (18, 24), (19, 24), (20, 24), (21, 24), (22, 24), (23, 24), (24, 24), (25, 48),
            (26, 48)] ∧
      main_test.bind (fun r => r.2.contents) = some letters) := by
  refine ⟨?_, by decide!, by decide!, by decide!⟩
  intro v xs x hc hp hs
  have hshape := vector.shape v xs hc hp
  have hsize : v.size_ = xs.length := by rw [hshape]
  have hcap : v.cap_ = xs.length + (v.ptr_.drop v.size_).length := by
    conv_lhs => rw [hshape]
  have hxs : xs.length ≤ INT_MAX := hsize ▸ hs
  have heq := emplace_back_eq moved xs (v.ptr_.drop v.size_) x hxs
  rw [← hshape] at heq
  refine ⟨_, heq, ?_, ?_, ?_, ?_⟩
  · unfold vector.contents
    dsimp only
    have htake : ∀ tl : List (Option α),
        ((xs ++ [x]).map some ++ tl).take (xs.length + 1) = (xs ++ [x]).map some := by
      intro tl
      have : xs.length + 1 = ((xs ++ [x]).map some).length := by simp
      rw [this, List.take_left']
      rfl
    rw [if_pos (by simp), htake, objects_map_some]
  · simp only [vector.size, hsize]
  · simp only [vector.capacity, vector.size]
    rw [hcap, hsize]
    generalize (List.drop xs.length v.ptr_).length = r
    split_ifs <;> omega
  · dsimp only
    generalize v.ptr_.drop v.size_ = d
    by_cases hr : d.length = 0
    · have hif : ¬ (d.length ≠ 0) := by simpa using hr
      rw [if_neg hif, if_neg hif]
      simp only [List.length_append, List.length_map, List.length_singleton,
        List.length_replicate]
      split_ifs <;> omega
    · have hif : d.length ≠ 0 := hr
      rw [if_pos hif, if_pos hif]
      simp only [List.length_append, List.length_map, List.length_singleton,
        List.length_tail]
      omega

/-- Instance of `emplace_back_doubles`: the full vector holding 1, 2, 3 with
capacity 3 takes 4 at the back and doubles its capacity to 6. -/
theorem emplace_back_doubles_witness :
    ({ cap_ := 3, size_ := 3, ptr_ := [some 1, some 2, some 3] } : vector Nat).contents
      = some [1, 2, 3] ∧
    ∃ v1 : vector Nat,
      ({ cap_ := 3, size_ := 3, ptr_ := [some 1, some 2, some 3] } : vector Nat).emplace_back id
          (Arg.value 4) = some v1 ∧
      v1.contents = some ([1, 2, 3] ++ [4]) ∧
      v1.size = 3 + 1 ∧
      v1.capacity = 6 := by
  obtain ⟨v1, h1, h2, h3, h4, -⟩ := (emplace_back_doubles Nat id).1
    ({ cap_ := 3, size_ := 3, ptr_ := [some 1, some 2, some 3] } : vector Nat) [1, 2, 3] 4
    (by decide) (by decide) (by decide)
  exact ⟨by decide, v1, h1, h2, h3, h4⟩

/-- C18: `emplace_back` does not always append the value it is given.  On the
full vector built from the string "1" (size 1, capacity 1), `v.push_back(v[0])`
first moves the old element to the new storage and then constructs the new
element from the reference to the old, moved-from one: whatever the moved-from
state of a string is, the vector ends with size 2, capacity 2 and the elements
"1" followed by that moved-from state.  With the empty string as the
moved-from state of a `std::string` the elements are "1", "" and not "1",
"1". -/
theorem push_back_own_element_appends_moved_from :
    vector.of_list ["1"] = some { cap_ := 1, size_ := 1, ptr_ := [some "1"] } ∧
    (∀ moved : String → String,
      ({ cap_ := 1, size_ := 1, ptr_ := [some "1"] } : vector String).push_back moved
          (Arg.element 0)
        = some { cap_ := 2, size_ := 2, ptr_ := [some "1", some (moved "1")] }) ∧
    (({ cap_ := 1, size_ := 1, ptr_ := [some "1"] } : vector String).push_back
          moved_from_string (Arg.element 0)).bind vector.contents = some ["1", ""] ∧
    (["1", ""] : List String) ≠ ["1"] ++ ["1"] := by
  refine ⟨by decide, ?_, by decide, by decide⟩
  intro moved
  have := push_back_own_element_eq moved ["1"] 0 "1" rfl (by decide)
  simpa using this

end DDvector

namespace DDvector

variable {α : Type}

/-- Whenever `pop_back` returns, `size_` and `cap_` are what they were. -/
theorem pop_back_keeps_size (v v1 : vector α) (h : v.pop_back = some v1) :
    v1.size_ = v.size_ ∧ v1.cap_ = v.cap_ := by
  unfold vector.pop_back at h
  by_cases h0 : v.size_ = 0
  · simp [h0] at h
  · rw [if_neg h0] at h
    cases hd : destroy v.ptr_ (v.size_ - 1) with
    | none => simp [hd] at h
    | some p =>
      simp only [hd, Option.some.injEq] at h
      subst h
      exact ⟨rfl, rfl⟩

/-- C19: `pop_back` does not remove the last element from the vector's
bookkeeping.  On the vector built from 1, 2, 3 (size 3, capacity 3),
`pop_back()` destroys the object in the last slot and returns with `size()`
still 3, not 2; the range from `begin()` to `end()` then ends in a destroyed
object.  After `emplace_back(4)` and `pop_back()` on that vector `size()` is 4,
not the original 3. -/
theorem pop_back_leaves_size :
    vector.of_list [1, 2, 3] = some { cap_ := 3, size_ := 3, ptr_ := [some 1, some 2, some 3] } ∧
    ({ cap_ := 3, size_ := 3, ptr_ := [some 1, some 2, some 3] } : vector Nat).pop_back
      = some { cap_ := 3, size_ := 3, ptr_ := [some 1, some 2, none] } ∧
    ({ cap_ := 3, size_ := 3, ptr_ := [some 1, some 2, none] } : vector Nat).size = 3 ∧
    ({ cap_ := 3, size_ := 3, ptr_ := [some 1, some 2, none] } : vector Nat).contents = none ∧
    (({ cap_ := 3, size_ := 3, ptr_ := [some 1, some 2, some 3] } : vector Nat).emplace_back id
        (Arg.value 4)).bind vector.pop_back
      = some { cap_ := 6, size_ := 4, ptr_ := [some 1, some 2, some 3, none, none, none] } := by
  decide

end DDvector



namespace DDshared_ptr

/-- A `shared_ptr` is determined by its two members. -/
theorem shared_ptr.eta (v : shared_ptr) : ({ ptr_ := v.ptr_, rep_ := v.rep_ } : shared_ptr) = v := by
  cases v; rfl

/-- A live object is an entry of `vars`. -/
theorem State.var_eq_some {s : State} {i : Nat} {v : shared_ptr} (h : s.var i = some v) :
    s.vars[i]? = some (some v) := by
  unfold State.var at h
  split at h
  · next w hw => simp only [Option.some.injEq] at h; rw [hw, h]
  · simp at h

/-- A live object is a member of `vars`. -/
theorem State.var_mem {s : State} {i : Nat} {v : shared_ptr} (h : s.var i = some v) :
    some v ∈ s.vars :=
  List.getElem?_mem (State.var_eq_some h)

/-- Replacing one slot changes the number of owners by what the old and the
new slot contribute. -/
theorem countP_refers_set (b : Nat) (l : List (Option shared_ptr)) (i : Nat)
    (old new : Option shared_ptr) (h : l[i]? = some old) :
    (l.set i new).countP (refers b) + (if refers b old then 1 else 0)
      = l.countP (refers b) + (if refers b new then 1 else 0) := by
  obtain ⟨hi, hget⟩ := List.getElem?_eq_some.1 h
  have h1 := List.countP_set (refers b) l i new hi
  have h2 := List.boole_getElem_le_countP (refers b) l i hi
  rw [hget] at h1 h2
  omega

/-- An entry that does not refer to `b` can be replaced by another such entry
without changing the number of owners of `b`. -/
theorem countP_refers_append (b : Nat) (l : List (Option shared_ptr)) (x : Option shared_ptr) :
    (l ++ [x]).countP (refers b) = l.countP (refers b) + (if refers b x then 1 else 0) := by
  simp [List.countP_append, List.countP_cons]

/-- With no owner of `b`, no live object refers to `b`. -/
theorem not_refers_of_owners_zero {l : List (Option shared_ptr)} {b : Nat}
    (h : l.countP (refers b) = 0) (v : shared_ptr) (hv : some v ∈ l) : v.rep_ ≠ some b := by
  have := List.countP_eq_zero.1 h (some v) hv
  simpa [refers] using this

end DDshared_ptr

namespace DDshared_ptr

/-- Declaring an empty `shared_ptr` keeps the state consistent. -/
theorem consistent_declare_null (s : State) (h : s.consistent) :
    ({ s with vars := s.vars ++ [some { ptr_ := none, rep_ := none }] } : State).consistent := by
  refine ⟨?_, ?_, ?_, h.created, h.once⟩
  · intro v hv
    rcases List.mem_append.1 hv with hv | hv
    · exact h.live v hv
    · simp only [List.mem_singleton, Option.some.injEq] at hv
      subst hv
      exact ⟨fun _ => rfl, fun b hb => by simp at hb⟩
  · intro v w hv hw hvs hws
    rcases List.mem_append.1 hv with hv | hv
    · rcases List.mem_append.1 hw with hw | hw
      · exact h.paired v w hv hw hvs hws
      · simp only [List.mem_singleton, Option.some.injEq] at hw
        subst hw
        simp at hws
    · simp only [List.mem_singleton, Option.some.injEq] at hv
      subst hv
      simp at hvs
  · intro b c hc hb
    have := h.counted b c hc hb
    simpa [State.owners, countP_refers_append, refers] using this

/-- Constructing a `shared_ptr` from a fresh object keeps the state consistent. -/
theorem consistent_from_new (s : State) (h : s.consistent) :
    (s.new_object.2.ctor_ptr (some s.new_object.1)).consistent := by
  have hzero : s.vars.countP (refers s.reps.length) = 0 := by
    rw [List.countP_eq_zero]
    intro a ha
    cases a with
    | none => simp [refers]
    | some v =>
      simp only [refers, decide_eq_true_eq]
      intro hv
      have := ((h.live v ha).2 _ hv).1
      omega
  refine ⟨?_, ?_, ?_, ?_, h.once⟩
  · intro v hv
    simp only [State.ctor_ptr, State.new_object] at hv ⊢
    rcases List.mem_append.1 hv with hv | hv
    · refine ⟨(h.live v hv).1, fun b hb => ?_⟩
      obtain ⟨h1, h2, p, h3, h4, h5⟩ := (h.live v hv).2 b hb
      exact ⟨by simp; omega, h2, p, h3, by omega, h5⟩
    · simp only [List.mem_singleton, Option.some.injEq] at hv
      subst hv
      refine ⟨fun hb => by simp at hb, fun b hb => ?_⟩
      simp only [Option.some.injEq] at hb
      subst hb
      refine ⟨by simp, fun hd => ?_, s.objects, rfl, by omega, fun hd => ?_⟩
      · exact absurd (h.created.1 _ hd) (by omega)
      · exact absurd (h.created.2 _ hd) (by omega)
  · intro v w hv hw hvs hws
    simp only [State.ctor_ptr, State.new_object] at hv hw
    rcases List.mem_append.1 hv with hv | hv <;> rcases List.mem_append.1 hw with hw | hw
    · exact h.paired v w hv hw hvs hws
    · simp only [List.mem_singleton, Option.some.injEq] at hw
      subst hw
      obtain ⟨b, hb⟩ := Option.isSome_iff_exists.1 hvs
      obtain ⟨h1, -, p, h3, h4, -⟩ := (h.live v hv).2 b hb
      rw [hb, h3]
      simp only [Option.some.injEq]
      constructor <;> intro e <;> omega
    · simp only [List.mem_singleton, Option.some.injEq] at hv
      subst hv
      obtain ⟨b, hb⟩ := Option.isSome_iff_exists.1 hws
      obtain ⟨h1, -, p, h3, h4, -⟩ := (h.live w hw).2 b hb
      rw [hb, h3]
      simp only [Option.some.injEq]
      constructor <;> intro e <;> omega
    · simp only [List.mem_singleton, Option.some.injEq] at hv hw
      subst hv; subst hw
      simp
  · intro b c hc hb
    simp only [State.ctor_ptr, State.new_object] at hc hb ⊢
    simp only [State.owners, countP_refers_append, refers, Option.some.injEq]
    by_cases hlt : b < s.reps.length
    · rw [List.getElem?_append_left hlt] at hc
      have := h.counted b c hc hb
      have hne : ¬ s.reps.length = b := by omega
      simpa [State.owners, hne] using this
    · have hlen : b = s.reps.length := by
        have := (List.getElem?_eq_some.1 hc).1
        simp at this
        omega
      subst hlen
      rw [List.getElem?_append_right (le_refl _)] at hc
      simp only [Nat.sub_self, List.getElem?_cons_zero, Option.some.injEq] at hc
      subst hc
      simp [hzero, ref_count.init]
  · simp only [State.ctor_ptr, State.new_object]
    refine ⟨fun b hb => ?_, fun p hp => ?_⟩
    · have := h.created.1 b hb
      simp; omega
    · have := h.created.2 p hp
      omega

end DDshared_ptr

namespace DDshared_ptr

/-- The move constructor keeps the state consistent. -/
theorem consistent_ctor_move (s s1 : State) (rhs : Nat) (h : s.consistent)
    (hs : s.ctor_move rhs = some s1) : s1.consistent := by
  unfold State.ctor_move at hs
  cases hr : s.var rhs with
  | none => simp [hr] at hs
  | some r =>
    have hmem := State.var_mem hr
    have hget := State.var_eq_some hr
    simp only [hr, Option.some.injEq] at hs
    subst hs
    rw [shared_ptr.eta r]
    have hsub : ∀ v, some v ∈ s.vars.set rhs (some { ptr_ := none, rep_ := none }) ++ [some r] →
        some v ∈ s.vars ∨ v = { ptr_ := none, rep_ := none } := by
      intro v hv
      rcases List.mem_append.1 hv with hv | hv
      · rcases List.mem_or_eq_of_mem_set hv with hv | hv
        · exact Or.inl hv
        · exact Or.inr (Option.some.inj hv)
      · simp only [List.mem_singleton, Option.some.injEq] at hv
        exact Or.inl (hv ▸ hmem)
    refine ⟨?_, ?_, ?_, h.created, h.once⟩
    · intro v hv
      rcases hsub v hv with hv | hv
      · exact h.live v hv
      · subst hv
        exact ⟨fun _ => rfl, fun b hb => by simp at hb⟩
    · intro v w hv hw hvs hws
      rcases hsub v hv with hv | hv
      · rcases hsub w hw with hw | hw
        · exact h.paired v w hv hw hvs hws
        · subst hw; simp at hws
      · subst hv; simp at hvs
    · intro b c hc hb
      have := h.counted b c hc hb
      have hset := countP_refers_set b s.vars rhs (some r)
        (some { ptr_ := none, rep_ := none }) hget
      simp only [State.owners, countP_refers_append] at this ⊢
      have hnull : refers b (some { ptr_ := none, rep_ := none }) = false := by simp [refers]
      rw [hnull] at hset
      simp only [Bool.false_eq_true, if_false, Nat.add_zero] at hset
      rw [hset]
      exact this

/-- Member `swap` keeps the state consistent. -/
theorem consistent_swap (s s1 : State) (i j : Nat) (h : s.consistent)
    (hs : s.swap i j = some s1) : s1.consistent := by
  unfold State.swap at hs
  cases ha : s.var i with
  | none => simp [ha] at hs
  | some a =>
    cases hb : s.var j with
    | none => simp [ha, hb] at hs
    | some b =>
      simp only [ha, hb, Option.some.injEq] at hs
      subst hs
      rw [shared_ptr.eta a, shared_ptr.eta b]
      have hma := State.var_mem ha
      have hmb := State.var_mem hb
      have hga := State.var_eq_some ha
      have hgb := State.var_eq_some hb
      have hsub : ∀ v, some v ∈ (s.vars.set i (some b)).set j (some a) → some v ∈ s.vars := by
        intro v hv
        rcases List.mem_or_eq_of_mem_set hv with hv | hv
        · rcases List.mem_or_eq_of_mem_set hv with hv | hv
          · exact hv
          · exact hv ▸ hmb
        · exact hv ▸ hma
      refine ⟨fun v hv => h.live v (hsub v hv),
        fun v w hv hw => h.paired v w (hsub v hv) (hsub w hw), ?_, h.created, h.once⟩
      intro r c hc hr
      have := h.counted r c hc hr
      have h1 := countP_refers_set r s.vars i (some a) (some b) hga
      have hg2 : (s.vars.set i (some b))[j]? = some (some b) := by
        by_cases hij : i = j
        · subst hij
          rw [List.getElem?_set_self (List.getElem?_eq_some.1 hga).1]
        · rw [List.getElem?_set_ne hij]; exact hgb
      have h2 := countP_refers_set r (s.vars.set i (some b)) j (some b) (some a) hg2
      simp only [State.owners] at this ⊢
      have : ((s.vars.set i (some b)).set j (some a)).countP (refers r)
          = s.vars.countP (refers r) := by omega
      rw [this]
      assumption

end DDshared_ptr

namespace DDshared_ptr

/-- Ending the lifetime of one object takes it out of the owners of its control
block and leaves the owners of every other control block alone. -/
theorem countP_refers_end (b : Nat) (l : List (Option shared_ptr)) (i : Nat) (v : shared_ptr)
    (h : l[i]? = some (some v)) :
    (l.set i none).countP (refers b) + (if v.rep_ = some b then 1 else 0)
      = l.countP (refers b) := by
  have := countP_refers_set b l i (some v) none h
  simpa [refers] using this

/-- What the destructor does to a consistent state: the object's lifetime ends;
when it was the only owner of its control block, the object it points to and
the control block are deleted, each once; otherwise nothing is deleted and the
count goes down by one.  The destructor of a live object always returns. -/
theorem dtor_spec (s : State) (i : Nat) (v : shared_ptr) (h : s.consistent)
    (hv : s.var i = some v) :
    ∃ s1, s.dtor i = some s1 ∧ s1.consistent ∧
      s1.vars = s.vars.set i none ∧ s1.objects = s.objects ∧
      s1.reps.length = s.reps.length ∧
      (∀ b, v.rep_ = some b → s.owners b = 1 →
        s1.deleted_reps = s.deleted_reps ++ [b] ∧
        s1.deleted_ptrs = s.deleted_ptrs ++ v.ptr_.toList ∧ s1.owners b = 0) ∧
      (∀ b, v.rep_ = some b → s.owners b ≠ 1 →
        s1.deleted_reps = s.deleted_reps ∧ s1.deleted_ptrs = s.deleted_ptrs ∧
        s1.owners b + 1 = s.owners b) ∧
      (v.rep_ = none → s1.deleted_reps = s.deleted_reps ∧ s1.deleted_ptrs = s.deleted_ptrs) := by
  have hmem := State.var_mem hv
  have hget := State.var_eq_some hv
  have hsub : ∀ w, some w ∈ s.vars.set i none → some w ∈ s.vars := by
    intro w hw
    rcases List.mem_or_eq_of_mem_set hw with hw | hw
    · exact hw
    · simp at hw
  unfold State.dtor
  simp only [hv]
  cases hb : v.rep_ with
  | none =>
    refine ⟨_, rfl, ⟨fun w hw => h.live w (hsub w hw),
      fun w x hw hx => h.paired w x (hsub w hw) (hsub x hx), ?_, h.created, h.once⟩,
      rfl, rfl, rfl, fun b hb' => by simp at hb', fun b hb' => by simp at hb',
      fun _ => ⟨rfl, rfl⟩⟩
    intro b c hc hd
    have := h.counted b c hc hd
    have hend := countP_refers_end b s.vars i v hget
    simp only [hb] at hend
    rw [if_neg (by simp), Nat.add_zero] at hend
    simp only [State.owners] at this ⊢
    rw [hend]; exact this
  | some b =>
    obtain ⟨hlt, hnd, p, hp, hpo, hpd⟩ := (h.live v hmem).2 b hb
    have hc : s.reps[b]? = some s.reps[b] := List.getElem?_eq_getElem hlt
    obtain ⟨hcount, hone⟩ := h.counted b _ hc hnd
    have hdec : (s.reps[b]).dec_ref
        = some ((s.owners b : Int) - 1, { count_ := (s.owners b : Int) - 1 }) := by
      unfold ref_count.dec_ref
      rw [hcount, if_pos (by simp only [INT_MIN]; omega)]
    have hend : ∀ r, (s.vars.set i none).countP (refers r) + (if b = r then 1 else 0)
        = s.vars.countP (refers r) := by
      intro r
      have := countP_refers_end r s.vars i v hget
      simpa [hb] using this
    simp only [hc, hdec]
    by_cases h1 : s.owners b = 1
    · have hz : ((s.owners b : Int) - 1 = 0) := by rw [h1]; rfl
      rw [if_pos hz]
      have hown0 : (s.vars.set i none).countP (refers b) = 0 := by
        have := hend b
        simp only [State.owners] at h1
        simp only [if_true] at this
        omega
      refine ⟨_, rfl, ⟨?_, fun w x hw hx => h.paired w x (hsub w hw) (hsub x hx), ?_, ?_, ?_⟩,
        rfl, rfl, by simp, ?_, ?_, fun hn => by simp at hn⟩
      · intro w hw
        have hw' := hsub w hw
        refine ⟨(h.live w hw').1, fun r hr => ?_⟩
        obtain ⟨g1, g2, q, g3, g4, g5⟩ := (h.live w hw').2 r hr
        have hrb : r ≠ b := by
          intro e
          exact not_refers_of_owners_zero hown0 w hw (e ▸ hr)
        refine ⟨by simpa using g1, ?_, q, g3, g4, ?_⟩
        · simp only [List.mem_append, List.mem_singleton, not_or]
          exact ⟨g2, hrb⟩
        · have hqp : q ≠ p := by
            intro e
            have := (h.paired w v hw' hmem (by simp [hr]) (by simp [hb])).2
              (by rw [g3, hp, e])
            rw [hr, hb] at this
            exact hrb (Option.some.inj this)
          simp only [hp, Option.toList_some, List.mem_append, List.mem_singleton, not_or]
          exact ⟨g5, hqp⟩
      · intro r c hc' hr
        simp only [List.mem_append, List.mem_singleton, not_or] at hr
        have hbr : b ≠ r := fun e => hr.2 e.symm
        rw [List.getElem?_set_ne hbr] at hc'
        have := h.counted r c hc' hr.1
        have he := hend r
        simp only [State.owners] at this ⊢
        rw [if_neg hbr, Nat.add_zero] at he
        rw [he]; exact this
      · refine ⟨fun r hr => ?_, fun q hq => ?_⟩
        · simp only [List.mem_append, List.mem_singleton] at hr
          rcases hr with hr | hr
          · simpa using h.created.1 r hr
          · subst hr; simpa using hlt
        · simp only [hp, Option.toList_some, List.mem_append, List.mem_singleton] at hq
          rcases hq with hq | hq
          · exact h.created.2 q hq
          · subst hq; exact hpo
      · refine ⟨?_, ?_⟩
        · rw [List.nodup_append]
          refine ⟨h.once.1, List.nodup_singleton _, ?_⟩
          intro x hx hx'
          simp only [List.mem_singleton] at hx'
          subst hx'
          exact hnd hx
        · rw [hp, Option.toList_some, List.nodup_append]
          refine ⟨h.once.2, List.nodup_singleton _, ?_⟩
          intro x hx hx'
          simp only [List.mem_singleton] at hx'
          subst hx'
          exact hpd hx
      · intro r hr _
        simp only [Option.some.injEq] at hr
        subst hr
        exact ⟨rfl, rfl, hown0⟩
      · intro r hr hne
        simp only [Option.some.injEq] at hr
        subst hr
        exact absurd h1 hne
    · have hz : ¬ ((s.owners b : Int) - 1 = 0) := by omega
      rw [if_neg hz]
      refine ⟨_, rfl, ⟨fun w hw => ?_, fun w x hw hx => h.paired w x (hsub w hw) (hsub x hx),
        ?_, ?_, h.once⟩, rfl, rfl, by simp, ?_, ?_, fun hn => by simp at hn⟩
      · simpa using h.live w (hsub w hw)
      · intro r c hc' hr
        have he := hend r
        simp only [State.owners] at hone h1 ⊢
        by_cases hbr : b = r
        · subst hbr
          rw [List.getElem?_set_self hlt] at hc'
          simp only [Option.some.injEq] at hc'
          subst hc'
          simp only [if_true] at he
          simp only [State.owners]
          constructor
          · have : (s.vars.countP (refers b) : Int)
                = ((s.vars.set i none).countP (refers b) : Int) + 1 := by
              rw [← he]; push_cast; rfl
            rw [this]; omega
          · omega
        · rw [List.getElem?_set_ne hbr] at hc'
          have := h.counted r c hc' hr
          simp only [State.owners] at this
          rw [if_neg hbr, Nat.add_zero] at he
          rw [he]; exact this
      · simpa using h.created
      · intro r hr h1'
        simp only [Option.some.injEq] at hr
        subst hr
        exact absurd h1' h1
      · intro r hr _
        simp only [Option.some.injEq] at hr
        subst hr
        have he := hend b
        simp only [if_true] at he
        exact ⟨rfl, rfl, he⟩

/-- The destructor keeps the state consistent. -/
theorem consistent_dtor (s s1 : State) (i : Nat) (h : s.consistent)
    (hs : s.dtor i = some s1) : s1.consistent := by
  cases hv : s.var i with
  | none => simp [State.dtor, hv] at hs
  | some v =>
    obtain ⟨s2, h2, hcons, -⟩ := dtor_spec s i v h hv
    rw [hs] at h2
    exact (Option.some.inj h2) ▸ hcons

end DDshared_ptr

namespace DDshared_ptr

/-- The initial state is consistent. -/
theorem consistent_init : State.init.consistent := by
  refine ⟨?_, ?_, ?_, ?_, ?_⟩ <;> simp [State.init]

/-- Every operation keeps the state consistent. -/
theorem consistent_step (s s1 : State) (op : Op) (h : s.consistent)
    (hs : s.step op = some s1) : s1.consistent := by
  cases op with
  | default =>
    simp only [State.step, Option.some.injEq] at hs
    subst hs
    exact consistent_declare_null s h
  | nullptr =>
    simp only [State.step, Option.some.injEq] at hs
    subst hs
    exact consistent_declare_null s h
  | from_new =>
    simp only [State.step, Option.some.injEq] at hs
    subst hs
    exact consistent_from_new s h
  | from_null =>
    simp only [State.step, Option.some.injEq] at hs
    subst hs
    exact consistent_declare_null s h
  | move rhs => exact consistent_ctor_move s s1 rhs h hs
  | destroy i => exact consistent_dtor s s1 i h hs
  | move_assign i rhs =>
    simp only [State.step, State.assign_move] at hs
    cases h1 : s.ctor_move rhs with
    | none => simp [h1] at hs
    | some t1 =>
      simp only [h1] at hs
      cases h2 : t1.swap s.vars.length i with
      | none => simp [h2] at hs
      | some t2 =>
        simp only [h2] at hs
        exact consistent_dtor t2 s1 _
          (consistent_swap t1 t2 _ _ (consistent_ctor_move s t1 rhs h h1) h2) hs
  | swap i rhs => exact consistent_swap s s1 i rhs h hs
  | reset_new i =>
    simp only [State.step, State.reset] at hs
    cases h2 : (s.new_object.2.ctor_ptr (some s.new_object.1)).swap
        s.new_object.2.vars.length i with
    | none => simp [h2] at hs
    | some t2 =>
      simp only [h2] at hs
      exact consistent_dtor t2 s1 _ (consistent_swap _ t2 _ _ (consistent_from_new s h) h2) hs
  | reset_null i =>
    simp only [State.step, State.reset] at hs
    cases h2 : (s.ctor_ptr none).swap s.vars.length i with
    | none => simp [h2] at hs
    | some t2 =>
      simp only [h2] at hs
      exact consistent_dtor t2 s1 _
        (consistent_swap _ t2 _ _ (consistent_declare_null s h) h2) hs

/-- Every state reached from a consistent state is consistent. -/
theorem consistent_exec (ops : List Op) :
    ∀ (s s1 : State), s.consistent → s.exec ops = some s1 → s1.consistent := by
  induction ops with
  | nil =>
    intro s s1 h hs
    simp only [State.exec, Option.some.injEq] at hs
    exact hs ▸ h
  | cons op ops ih =>
    intro s s1 h hs
    simp only [State.exec] at hs
    cases h1 : s.step op with
    | none => simp [h1] at hs
    | some t =>
      simp only [h1] at hs
      exact ih t s1 (consistent_step s t op h h1) hs

/-- In a consistent state `use_count()` of an owner is the number of live
owners of its control block, and `use_count()` of an empty `shared_ptr` is 0. -/
theorem use_count_eq_owners (s : State) (h : s.consistent) (i : Nat) (v : shared_ptr)
    (hv : s.var i = some v) :
    (∀ b, v.rep_ = some b → s.use_count i = some (s.owners b : Int)) ∧
    (v.rep_ = none → s.use_count i = some 0) := by
  refine ⟨fun b hb => ?_, fun hb => ?_⟩
  · obtain ⟨hlt, hnd, -⟩ := (h.live v (State.var_mem hv)).2 b hb
    have hc : s.reps[b]? = some s.reps[b] := List.getElem?_eq_getElem hlt
    have := (h.counted b _ hc hnd).1
    simp [State.use_count, hv, hb, hc, ref_count.use_count, this]
  · simp [State.use_count, hv, hb]

/-- A deleted control block has no live owner, and a created control block
without live owner was deleted. -/
theorem deleted_iff_no_owner (s : State) (h : s.consistent) (b : Nat) (hb : b < s.reps.length) :
    b ∈ s.deleted_reps ↔ s.owners b = 0 := by
  constructor
  · intro hd
    simp only [State.owners, List.countP_eq_zero]
    intro a ha
    cases a with
    | none => simp [refers]
    | some v =>
      simp only [refers, decide_eq_true_eq]
      intro hv
      exact ((h.live v ha).2 b hv).2.1 hd
  · intro h0
    by_contra hd
    have := (h.counted b _ (List.getElem?_eq_getElem hb) hd).2
    omega

/-- After the move constructor the source reports `use_count() = 0` and the new
object reports what the source reported. -/
theorem ctor_move_use_count (s s1 : State) (rhs : Nat) (hs : s.ctor_move rhs = some s1) :
    s1.use_count rhs = some 0 ∧ s1.use_count s.vars.length = s.use_count rhs := by
  unfold State.ctor_move at hs
  cases hr : s.var rhs with
  | none => simp [hr] at hs
  | some r =>
    have hget := State.var_eq_some hr
    have hlt := (List.getElem?_eq_some.1 hget).1
    simp only [hr, Option.some.injEq] at hs
    subst hs
    constructor
    · have : (s.vars.set rhs (some { ptr_ := none, rep_ := none }) ++
          [some { ptr_ := r.ptr_, rep_ := r.rep_ }])[rhs]?
          = some (some { ptr_ := none, rep_ := none }) := by
        rw [List.getElem?_append_left (by simpa using hlt), List.getElem?_set_self hlt]
      simp [State.use_count, State.var, this]
    · have : (s.vars.set rhs (some { ptr_ := none, rep_ := none }) ++
          [some { ptr_ := r.ptr_, rep_ := r.rep_ }])[s.vars.length]?
          = some (some r) := by
        rw [List.getElem?_append_right (by simp)]
        simp
      simp only [State.use_count, State.var, this, hget]

/-- A `shared_ptr` built by the default constructor, from `nullptr` or from a
null pointer reports `use_count() = 0`; one built from a fresh object reports
1. -/
theorem ctor_use_count (s : State) :
    s.ctor_default.use_count s.vars.length = some 0 ∧
    s.ctor_nullptr.use_count s.vars.length = some 0 ∧
    (s.ctor_ptr none).use_count s.vars.length = some 0 ∧
    (s.new_object.2.ctor_ptr (some s.new_object.1)).use_count s.vars.length = some 1 := by
  have h0 : (s.vars ++ [some ({ ptr_ := none, rep_ := none } : shared_ptr)])[s.vars.length]?
      = some (some { ptr_ := none, rep_ := none }) := by
    rw [List.getElem?_append_right (le_refl _)]; simp
  refine ⟨?_, ?_, ?_, ?_⟩
  · simp [State.use_count, State.var, State.ctor_default, h0]
  · simp [State.use_count, State.var, State.ctor_nullptr, State.ctor_default, h0]
  · simp [State.use_count, State.var, State.ctor_ptr, h0]
  · have h1 : (s.vars ++ [some ({ ptr_ := some s.objects, rep_ := some s.reps.length } :
        shared_ptr)])[s.vars.length]?
        = some (some { ptr_ := some s.objects, rep_ := some s.reps.length }) := by
      rw [List.getElem?_append_right (le_refl _)]; simp
    have h2 : (s.reps ++ [ref_count.init])[s.reps.length]? = some ref_count.init := by
      rw [List.getElem?_append_right (le_refl _)]; simp
    simp [State.use_count, State.var, State.ctor_ptr, State.new_object, h1, h2,
      ref_count.use_count, ref_count.init]

end DDshared_ptr

namespace DDshared_ptr

/-- The destructor leaves every count at most 1 when it was so before. -/
theorem count_le_one_dtor (s s1 : State) (i : Nat)
    (h : ∀ (b : Nat) (c : ref_count), s.reps[b]? = some c → c.count_ ≤ 1)
    (hs : s.dtor i = some s1) :
    ∀ (b : Nat) (c : ref_count), s1.reps[b]? = some c → c.count_ ≤ 1 := by
  unfold State.dtor at hs
  cases hv : s.var i with
  | none => simp [hv] at hs
  | some v =>
    simp only [hv] at hs
    cases hb : v.rep_ with
    | none =>
      simp only [hb, Option.some.injEq] at hs
      subst hs
      exact h
    | some b =>
      simp only [hb] at hs
      cases hc : s.reps[b]? with
      | none => simp [hc] at hs
      | some c =>
        simp only [hc] at hs
        cases hd : c.dec_ref with
        | none => simp [hd] at hs
        | some nc =>
          obtain ⟨n, c1⟩ := nc
          have hc1 : c1.count_ = c.count_ - 1 := by
            unfold ref_count.dec_ref at hd
            split at hd
            · simp only [Option.some.injEq, Prod.mk.injEq] at hd
              rw [← hd.2]
            · simp at hd
          have hlt : b < s.reps.length := (List.getElem?_eq_some.1 hc).1
          have hle := h b c hc
          have key : ∀ (b' : Nat) (c' : ref_count),
              (s.reps.set b c1)[b']? = some c' → c'.count_ ≤ 1 := by
            intro b' c' hc'
            by_cases hbb : b = b'
            · subst hbb
              rw [List.getElem?_set_self hlt] at hc'
              simp only [Option.some.injEq] at hc'
              subst hc'
              omega
            · rw [List.getElem?_set_ne hbb] at hc'
              exact h b' c' hc'
          simp only [hd] at hs
          split at hs <;>
            (simp only [Option.some.injEq] at hs; subst hs; exact key)

/-- Member `swap` does not touch the control blocks. -/
theorem reps_swap (s s1 : State) (i j : Nat) (hs : s.swap i j = some s1) :
    s1.reps = s.reps := by
  unfold State.swap at hs
  cases ha : s.var i with
  | none => simp [ha] at hs
  | some a =>
    cases hb : s.var j with
    | none => simp [ha, hb] at hs
    | some b =>
      simp only [ha, hb, Option.some.injEq] at hs
      subst hs
      rfl

/-- The move constructor does not touch the control blocks. -/
theorem reps_ctor_move (s s1 : State) (rhs : Nat) (hs : s.ctor_move rhs = some s1) :
    s1.reps = s.reps := by
  unfold State.ctor_move at hs
  cases hr : s.var rhs with
  | none => simp [hr] at hs
  | some r =>
    simp only [hr, Option.some.injEq] at hs
    subst hs
    rfl

/-- A control block created by `new ref_count()` keeps every count at most 1. -/
theorem count_le_one_from_new (s : State)
    (h : ∀ (b : Nat) (c : ref_count), s.reps[b]? = some c → c.count_ ≤ 1) :
    ∀ (b : Nat) (c : ref_count),
      (s.new_object.2.ctor_ptr (some s.new_object.1)).reps[b]? = some c → c.count_ ≤ 1 := by
  intro b c hc
  simp only [State.ctor_ptr, State.new_object] at hc
  by_cases hlt : b < s.reps.length
  · rw [List.getElem?_append_left hlt] at hc
    exact h b c hc
  · have hlen : b = s.reps.length := by
      have := (List.getElem?_eq_some.1 hc).1
      simp at this
      omega
    subst hlen
    rw [List.getElem?_append_right (le_refl _)] at hc
    simp only [Nat.sub_self, List.getElem?_cons_zero, Option.some.injEq] at hc
    subst hc
    simp [ref_count.init]

/-- Every operation leaves every count at most 1 when it was so before: no
operation increments a count. -/
theorem count_le_one_step (s s1 : State) (op : Op)
    (h : ∀ (b : Nat) (c : ref_count), s.reps[b]? = some c → c.count_ ≤ 1)
    (hs : s.step op = some s1) :
    ∀ (b : Nat) (c : ref_count), s1.reps[b]? = some c → c.count_ ≤ 1 := by
  cases op with
  | default =>
    simp only [State.step, Option.some.injEq] at hs
    subst hs; exact h
  | nullptr =>
    simp only [State.step, Option.some.injEq] at hs
    subst hs; exact h
  | from_new =>
    simp only [State.step, Option.some.injEq] at hs
    subst hs; exact count_le_one_from_new s h
  | from_null =>
    simp only [State.step, Option.some.injEq] at hs
    subst hs; exact h
  | move rhs =>
    rw [reps_ctor_move s s1 rhs hs]; exact h
  | destroy i => exact count_le_one_dtor s s1 i h hs
  | move_assign i rhs =>
    simp only [State.step, State.assign_move] at hs
    cases h1 : s.ctor_move rhs with
    | none => simp [h1] at hs
    | some t1 =>
      simp only [h1] at hs
      cases h2 : t1.swap s.vars.length i with
      | none => simp [h2] at hs
      | some t2 =>
        simp only [h2] at hs
        refine count_le_one_dtor t2 s1 _ ?_ hs
        rw [reps_swap t1 t2 _ _ h2, reps_ctor_move s t1 rhs h1]
        exact h
  | swap i rhs =>
    rw [reps_swap s s1 i rhs hs]; exact h
  | reset_new i =>
    simp only [State.step, State.reset] at hs
    cases h2 : (s.new_object.2.ctor_ptr (some s.new_object.1)).swap
        s.new_object.2.vars.length i with
    | none => simp [h2] at hs
    | some t2 =>
      simp only [h2] at hs
      refine count_le_one_dtor t2 s1 _ ?_ hs
      rw [reps_swap _ t2 _ _ h2]
      exact count_le_one_from_new s h
  | reset_null i =>
    simp only [State.step, State.reset] at hs
    cases h2 : (s.ctor_ptr none).swap s.vars.length i with
    | none => simp [h2] at hs
    | some t2 =>
      simp only [h2] at hs
      refine count_le_one_dtor t2 s1 _ ?_ hs
      rw [reps_swap _ t2 _ _ h2]
      exact h

/-- In every reachable state every count is at most 1. -/
theorem count_le_one_exec (ops : List Op) :
    ∀ (s s1 : State), (∀ (b : Nat) (c : ref_count), s.reps[b]? = some c → c.count_ ≤ 1) →
      s.exec ops = some s1 →
      ∀ (b : Nat) (c : ref_count), s1.reps[b]? = some c → c.count_ ≤ 1 := by
  induction ops with
  | nil =>
    intro s s1 h hs
    simp only [State.exec, Option.some.injEq] at hs
    exact hs ▸ h
  | cons op ops ih =>
    intro s s1 h hs
    simp only [State.exec] at hs
    cases h1 : s.step op with
    | none => simp [h1] at hs
    | some t =>
      simp only [h1] at hs
      exact ih t s1 (count_le_one_step s t op h h1) hs

/-- C20: the reference count of `DD::shared_ptr` never follows a copy, because
the class has no copy that can be instantiated.  In every state reached from
the start of the program by the operations the class supports (construction by
default, from `nullptr`, from a null pointer and from a fresh object, move
construction, swap, move assignment, reset and destruction), every live
`shared_ptr` that refers to a control block is the only owner of that block
and reports `use_count() = 1`: a count of 2 is never reached.  For these
operations the rest holds: the count of every control block that is not
deleted is the number of its live owners; the block and the object of a live
owner are not deleted; a control block is deleted exactly when it has no live
owner, and no control block or object is deleted twice; a `shared_ptr` built
by the default constructor, from `nullptr` or from a null pointer reports 0,
one built from a fresh object reports 1, a moved-from one reports 0; and the
destructor of an owner deletes the object and the control block, each once. -/
theorem ref_count_invariant (ops : List Op) (s : State) (h : State.init.exec ops = some s) :
    (∀ i v, s.var i = some v →
      (v.rep_ = none → s.use_count i = some 0) ∧
      ∀ b, v.rep_ = some b →
        s.use_count i = some 1 ∧ s.owners b = 1 ∧
        b ∉ s.deleted_reps ∧ ∃ p, v.ptr_ = some p ∧ p ∉ s.deleted_ptrs) ∧
    (∀ b c, s.reps[b]? = some c → b ∉ s.deleted_reps → c.count_ = (s.owners b : Int)) ∧
    (∀ b, b < s.reps.length → (b ∈ s.deleted_reps ↔ s.owners b = 0)) ∧
    (s.deleted_reps.Nodup ∧ s.deleted_ptrs.Nodup) ∧
    (s.ctor_default.use_count s.vars.length = some 0 ∧
      s.ctor_nullptr.use_count s.vars.length = some 0 ∧
      (s.ctor_ptr none).use_count s.vars.length = some 0 ∧
      (s.new_object.2.ctor_ptr (some s.new_object.1)).use_count s.vars.length = some 1) ∧
    (∀ rhs s1, s.ctor_move rhs = some s1 →
      s1.use_count rhs = some 0 ∧ s1.use_count s.vars.length = s.use_count rhs) ∧
    (∀ i v b, s.var i = some v → v.rep_ = some b →
      ∃ s1, s.dtor i = some s1 ∧
        s1.deleted_reps = s.deleted_reps ++ [b] ∧
        s1.deleted_ptrs = s.deleted_ptrs ++ v.ptr_.toList ∧ s1.owners b = 0) := by
  have hc : s.consistent := consistent_exec ops State.init s consistent_init h
  have hle : ∀ (b : Nat) (c : ref_count), s.reps[b]? = some c → c.count_ ≤ 1 :=
    count_le_one_exec ops State.init s (by simp [State.init]) h
  have hone : ∀ i v b, s.var i = some v → v.rep_ = some b → s.owners b = 1 := by
    intro i v b hv hb
    obtain ⟨hlt, hnd, -⟩ := (hc.live v (State.var_mem hv)).2 b hb
    have hget : s.reps[b]? = some s.reps[b] := List.getElem?_eq_getElem hlt
    have h1 := hc.counted b _ hget hnd
    have h2 := hle b _ hget
    omega
  refine ⟨?_, ?_, fun b hb => deleted_iff_no_owner s hc b hb, hc.once, ctor_use_count s,
    fun rhs s1 hs => ctor_move_use_count s s1 rhs hs, ?_⟩
  · intro i v hv
    refine ⟨(use_count_eq_owners s hc i v hv).2, fun b hb => ?_⟩
    obtain ⟨hlt, hnd, p, hp, -, hpd⟩ := (hc.live v (State.var_mem hv)).2 b hb
    have hu := (use_count_eq_owners s hc i v hv).1 b hb
    rw [hone i v b hv hb] at hu
    exact ⟨hu, hone i v b hv hb, hnd, p, hp, hpd⟩
  · intro b c hb hd
    exact (hc.counted b c hb hd).1
  · intro i v b hv hb
    obtain ⟨s1, h1, -, -, -, -, h2, -, -⟩ := dtor_spec s i v hc hv
    exact ⟨s1, h1, h2 b hb (hone i v b hv hb)⟩

/-- Witness for `ref_count_invariant`: an object is created, moved through two
further variables, a second object is created, swapped and destroyed; the
remaining owner of the first object reports `use_count() = 1`. -/
theorem ref_count_invariant_witness :
    State.init.exec [.from_new, .move 0, .default, .move_assign 2 1, .from_new, .swap 2 4, .destroy 2]
      = some { reps := [{ count_ := 1 }, { count_ := 0 }], deleted_reps := [1], deleted_ptrs := [1], objects := 2, vars := [some { ptr_ := none, rep_ := none }, some { ptr_ := none, rep_ := none }, none, none, some { ptr_ := some 0, rep_ := some 0 }] } ∧
    ({ reps := [{ count_ := 1 }, { count_ := 0 }], deleted_reps := [1], deleted_ptrs := [1], objects := 2, vars := [some { ptr_ := none, rep_ := none }, some { ptr_ := none, rep_ := none }, none, none, some { ptr_ := some 0, rep_ := some 0 }] } : State).use_count 4
      = some (1 : Int) :=
  ⟨by decide,
   ((ref_count_invariant [.from_new, .move 0, .default, .move_assign 2 1, .from_new, .swap 2 4, .destroy 2]
      { reps := [{ count_ := 1 }, { count_ := 0 }], deleted_reps := [1], deleted_ptrs := [1], objects := 2, vars := [some { ptr_ := none, rep_ := none }, some { ptr_ := none, rep_ := none }, none, none, some { ptr_ := some 0, rep_ := some 0 }] }
      (by decide)).1 4 { ptr_ := some 0, rep_ := some 0 } (by decide)).2 0 rfl |>.1⟩

end DDshared_ptr

namespace DDunique_ptr

/-- A live object is an entry of `vars`. -/
theorem State.var_entry {s : State} {i : Nat} {u : unique_ptr} (h : s.var i = some u) :
    s.vars[i]? = some (some u) := by
  unfold State.var at h
  split at h
  · next w hw => simp only [Option.some.injEq] at h; rw [hw, h]
  · simp at h

/-- The object named `i` after its slot was overwritten. -/
theorem var_set_self (d : List Nat) (l : List (Option unique_ptr)) (i : Nat) (u : unique_ptr)
    (hi : i < l.length) :
    ({ deleted := d, vars := l.set i (some u) } : State).var i = some u := by
  simp [State.var, List.getElem?_set_self hi]

/-- Another object after slot `i` was overwritten. -/
theorem var_set_other (d d1 : List Nat) (l : List (Option unique_ptr)) (i j : Nat)
    (x : Option unique_ptr) (hij : i ≠ j) :
    ({ deleted := d1, vars := l.set i x } : State).var j
      = ({ deleted := d, vars := l } : State).var j := by
  simp [State.var, List.getElem?_set_ne hij]

/-- C21: unique ownership transfer of `DD::unique_ptr`.  For every live
`unique_ptr` `i` holding the pointer `u.ptr_`: `release()` returns that
pointer, leaves `get()` null and hands nothing to `delete`; `reset(p)` hands
the previously held pointer to `delete` once (a null pointer leaves nothing to
delete) and then `get()` is `p`; the move assignment from a different live
object `j` leaves `i` holding the former pointer of `j`, leaves `j` holding
null, and hands the former pointer of `i` to `delete` once; the move assignment
of `i` to itself leaves every object and the deletions as they were.  None of
these calls touches any other object. -/
theorem unique_ownership_transfer (s : State) (i : Nat) (u : unique_ptr)
    (hu : s.var i = some u) :
    (∃ s1, s.release i = some (u.ptr_, s1) ∧ s1.get i = some none ∧
      s1.deleted = s.deleted ∧ ∀ k, k ≠ i → s1.var k = s.var k) ∧
    (∀ p, ∃ s1, s.reset i p = some s1 ∧ s1.get i = some p ∧
      s1.deleted = s.deleted ++ u.ptr_.toList ∧ ∀ k, k ≠ i → s1.var k = s.var k) ∧
    (∀ j w, s.var j = some w → i ≠ j →
      ∃ s1, s.move_assign i j = some s1 ∧ s1.get i = some w.ptr_ ∧ s1.get j = some none ∧
        s1.deleted = s.deleted ++ u.ptr_.toList ∧
        ∀ k, k ≠ i → k ≠ j → s1.var k = s.var k) ∧
    (∃ s1, s.move_assign i i = some s1 ∧ s1.get i = some u.ptr_ ∧
      s1.deleted = s.deleted ∧ ∀ k, s1.var k = s.var k) := by
  obtain ⟨d, l⟩ := s
  have hget := State.var_entry hu
  have hi : i < l.length := (List.getElem?_eq_some.1 hget).1
  simp only at hget hi
  have hrel : ∀ (k : Nat) (x : unique_ptr),
      ({ deleted := d, vars := l } : State).var k = some x →
      ({ deleted := d, vars := l } : State).release k
        = some (x.ptr_, { deleted := d, vars := l.set k (some { ptr_ := none }) }) := by
    intro k x hx
    simp only [State.release, hx]
  have hreset : ∀ (e : List Nat) (m : List (Option unique_ptr)) (k : Nat) (x : unique_ptr)
      (p : Option Nat), ({ deleted := e, vars := m } : State).var k = some x →
      ({ deleted := e, vars := m } : State).reset k p
        = some { deleted := e ++ x.ptr_.toList, vars := m.set k (some { ptr_ := p }) } := by
    intro e m k x p hx
    simp only [State.reset, hx]
  refine ⟨?_, ?_, ?_, ?_⟩
  · refine ⟨_, hrel i u hu, ?_, rfl, ?_⟩
    · simp only [State.get, var_set_self d l i _ hi]
    · intro k hk
      exact var_set_other d d l i k _ (Ne.symm hk)
  · intro p
    refine ⟨_, hreset d l i u p hu, ?_, rfl, ?_⟩
    · simp only [State.get, var_set_self _ l i _ hi]
    · intro k hk
      exact var_set_other d _ l i k _ (Ne.symm hk)
  · intro j w hw hij
    have hgj := State.var_entry hw
    have hj : j < l.length := (List.getElem?_eq_some.1 hgj).1
    simp only at hgj hj
    have hu1 : ({ deleted := d, vars := l.set j (some { ptr_ := none }) } : State).var i
        = some u := by
      rw [var_set_other d d l j i _ (Ne.symm hij)]; exact hu
    have hres : ({ deleted := d, vars := l } : State).move_assign i j
        = some { deleted := d ++ u.ptr_.toList, vars := (l.set j (some { ptr_ := none })).set i (some { ptr_ := w.ptr_ }) } := by
      simp only [State.move_assign, hrel j w hw]
      exact hreset d _ i u w.ptr_ hu1
    refine ⟨_, hres, ?_, ?_, rfl, ?_⟩
    · have := var_set_self (d ++ u.ptr_.toList) (l.set j (some { ptr_ := none })) i
        { ptr_ := w.ptr_ } (by simpa using hi)
      simp only [State.get, this]
    · have : ({ deleted := d ++ u.ptr_.toList, vars := (l.set j (some { ptr_ := none })).set i (some { ptr_ := w.ptr_ }) } : State).var j
          = some { ptr_ := none } := by
        rw [var_set_other (d ++ u.ptr_.toList) _ _ i j _ hij]
        exact var_set_self _ l j _ hj
      simp only [State.get, this]
    · intro k hki hkj
      rw [var_set_other (d ++ u.ptr_.toList) _ _ i k _ (Ne.symm hki)]
      exact var_set_other d _ l j k _ (Ne.symm hkj)
  · have hu1 : ({ deleted := d, vars := l.set i (some { ptr_ := none }) } : State).var i
        = some { ptr_ := none } := var_set_self d l i _ hi
    have hres : ({ deleted := d, vars := l } : State).move_assign i i
        = some { deleted := d ++ [], vars := (l.set i (some { ptr_ := none })).set i (some { ptr_ := u.ptr_ }) } := by
      simp only [State.move_assign, hrel i u hu]
      exact hreset d _ i { ptr_ := none } u.ptr_ hu1
    have hself := var_set_self (d ++ []) (l.set i (some { ptr_ := none })) i
      { ptr_ := u.ptr_ } (by simpa using hi)
    refine ⟨_, hres, ?_, by simp, ?_⟩
    · simp only [State.get, hself]
    · intro k
      by_cases hk : k = i
      · subst hk
        rw [hself]
        exact hu.symm
      · rw [var_set_other d _ _ i k _ (Ne.symm hk)]
        exact var_set_other d _ l i k _ (Ne.symm hk)

/-- Instance of `unique_ownership_transfer`: object 0 holds the address 7 and
object 1 the address 8, nothing deleted yet.  `release()` on 0 returns 7;
`reset` of 0 to the address 9 deletes 7; the move assignment of 1 to 0 leaves 0
holding 8, 1 holding null and 7 deleted; the move assignment of 0 to itself
changes nothing. -/
theorem unique_ownership_transfer_witness :
    ({ deleted := [], vars := [some { ptr_ := some 7 }, some { ptr_ := some 8 }] } : State).var 0 = some { ptr_ := some 7 } ∧
    (∃ s1, ({ deleted := [], vars := [some { ptr_ := some 7 }, some { ptr_ := some 8 }] } : State).release 0 = some (some 7, s1) ∧ s1.get 0 = some none ∧ s1.deleted = []) ∧
    ({ deleted := [], vars := [some { ptr_ := some 7 }, some { ptr_ := some 8 }] } : State).reset 0 (some 9)
      = some { deleted := [7], vars := [some { ptr_ := some 9 }, some { ptr_ := some 8 }] } ∧
    ({ deleted := [], vars := [some { ptr_ := some 7 }, some { ptr_ := some 8 }] } : State).move_assign 0 1
      = some { deleted := [7], vars := [some { ptr_ := some 8 }, some { ptr_ := none }] } ∧
    ({ deleted := [], vars := [some { ptr_ := some 7 }, some { ptr_ := some 8 }] } : State).move_assign 0 0
      = some { deleted := [], vars := [some { ptr_ := some 7 }, some { ptr_ := some 8 }] } := by
  have h := unique_ownership_transfer
    { deleted := [], vars := [some { ptr_ := some 7 }, some { ptr_ := some 8 }] } 0
    { ptr_ := some 7 } (by decide)
  obtain ⟨s1, h1, h2, h3, -⟩ := h.1
  exact ⟨by decide, ⟨s1, h1, h2, h3⟩, by decide, by decide, by decide⟩

end DDunique_ptr

namespace DDqueue2

variable {α : Type}

/-- With a capacity that fits the `int` field, `try_push` returns `false`
exactly when the stored length has reached the capacity. -/
theorem try_push_refuses_iff_full_in_range (xs : List α) (v : α) {c : Nat} (h0 : 0 < c)
    (hc : c < 2 ^ 31) :
    (({ q_ := xs, max_queue_size_ := to_int c } : Queue α).try_push v).1 = false
      ↔ c ≤ xs.length := by
  have := (try_push_spec ({ q_ := xs, max_queue_size_ := to_int c } : Queue α) v).1
  rw [this, is_full_in_range xs h0 hc]
  simp

/-- C3: `try_push` is not refused exactly when the queue is full once the
capacity leaves the range of the `int` field.  On `Queue<int> q(4294967297)`
holding one element, far below its capacity, `try_push(5)` returns `false` and
stores nothing; on `Queue<int> q(2147483648)` holding 2147483648 elements, so
that the queue is full, `try_push(5)` returns `true` and appends 5. -/
theorem try_push_ignores_capacity_beyond_int :
    (([0] : List Int).length < 4294967297 ∧
      ({ (Queue.init 4294967297 : Queue Int) with q_ := [0] }).try_push 5
        = (false, { (Queue.init 4294967297 : Queue Int) with q_ := [0] })) ∧
    ((List.replicate 2147483648 (0 : Int)).length ≥ 2147483648 ∧
      ({ (Queue.init 2147483648 : Queue Int) with
          q_ := List.replicate 2147483648 (0 : Int) }).try_push 5
        = (true, { (Queue.init 2147483648 : Queue Int) with
            q_ := List.replicate 2147483648 (0 : Int) ++ [5] })) := by
  have h31 : (Queue.init 2147483648 : Queue Int).max_queue_size_ ≤ 0 := by
    show to_int 2147483648 ≤ 0
    rw [to_int_2147483648]; decide
  have hf := is_full_of_nonpos ({ (Queue.init 2147483648 : Queue Int) with
    q_ := List.replicate 2147483648 (0 : Int) }) h31
  refine ⟨⟨by decide, by decide⟩, ?_, ?_⟩
  · rw [List.length_replicate]
  · unfold Queue.try_push
    rw [hf]
    rfl

end DDqueue2
